import Mathlib

/-!
Verification development for the PySupervisor TODO-block CLI
(`src/todo_cli.py`).

The program manipulates plain text: a file holds at most one delimited
"TODO block" between two fixed literal markers; task lines inside the
block are formatted records.  We embed the text-processing core as Lean
functions over `List Char` (named `Str` below).  Python string idioms are
modelled at ASCII scope:

* `str.strip()` removes the characters ` \t\n\r\x0b\x0c` at both ends;
* `str.splitlines()` splits at `\n`, `\r`, `\r\n`, `\x0b`, `\x0c`;
* `re`-module patterns used by the source are fixed literal/character-class
  patterns, embedded as explicit scanning functions (leftmost match, with
  the exact alternation semantics noted at each definition);
* `re.sub` without a `count` argument replaces every non-overlapping
  leftmost match; the replacement strings built by this program are taken
  literally (they are handed to `re.sub` as templates, but the program
  only ever inserts text free of backslash escapes in the cases modelled
  and proved below).
-/

/-- Text is modelled as a list of characters. -/
abbrev Str := List Char

/-- The apostrophe character (`'`), used by the block markers. -/
def SQ : Char := Char.ofNat 39

/-- Marker `TODO_START` of src/todo_cli.py line 12: `''' <---TODO LIST - START--->`. -/
def TODO_START : Str := [SQ, SQ, SQ] ++ " <---TODO LIST - START--->".data

/-- Marker `TODO_END` of src/todo_cli.py line 13: `<---TODO LIST - END--->'''`. -/
def TODO_END : Str := "<---TODO LIST - END--->".data ++ [SQ, SQ, SQ]

/-- Boolean prefix test on character lists. -/
def isPfx : Str → Str → Bool
  | [], _ => true
  | _ :: _, [] => false
  | a :: as, b :: bs => a = b && isPfx as bs

/-- Finds the first occurrence of `pat` in a string: returns the part
before the occurrence and the part after it (Python `re.search` on an
escaped literal, or the `in` test / `str.find`). -/
def splitFirst (pat : Str) : Str → Option (Str × Str)
  | [] => if isPfx pat [] then some ([], []) else none
  | c :: rest =>
    if isPfx pat (c :: rest) then some ([], (c :: rest).drop pat.length)
    else (splitFirst pat rest).map fun ab => (c :: ab.1, ab.2)

/-- Python's substring test `pat in s`. -/
def containsSubB (pat s : Str) : Bool := (splitFirst pat s).isSome

/-- Leftmost match of the regex `escape(TODO_START)(.*?)escape(TODO_END)`
with `re.DOTALL`: the match starts at the first occurrence of the start
marker (a start position with no end marker after it can never begin a
match, and every end marker lies after the first start marker whenever it
lies after any start marker), and the non-greedy group ends at the first
end marker after it.  Returns (text before, inner group, text after). -/
def findSpan (text : Str) : Option (Str × Str × Str) :=
  match splitFirst TODO_START text with
  | none => none
  | some (pre, rest) =>
    match splitFirst TODO_END rest with
    | none => none
    | some (inner, post) => some (pre, inner, post)

theorem isPfx_iff (p s : Str) : isPfx p s = true ↔ p <+: s := by
  induction p generalizing s with
  | nil => simp [isPfx]
  | cons a as ih =>
    cases s with
    | nil => simp [isPfx]
    | cons b bs =>
      simp only [isPfx, Bool.and_eq_true, decide_eq_true_eq, ih]
      constructor
      · rintro ⟨rfl, t, rfl⟩
        exact ⟨t, rfl⟩
      · rintro ⟨t, ht⟩
        injection ht with h1 h2
        exact ⟨h1, t, h2⟩

theorem splitFirst_sound {pat s a b : Str} (h : splitFirst pat s = some (a, b)) :
    s = a ++ pat ++ b := by
  induction s generalizing a with
  | nil =>
    simp only [splitFirst] at h
    split at h
    · rename_i hp
      rw [isPfx_iff] at hp
      obtain ⟨t, ht⟩ := hp
      cases pat with
      | nil => simp_all
      | cons c cs => simp at ht
    · exact absurd h (by simp)
  | cons c rest ih =>
    simp only [splitFirst] at h
    split at h
    · rename_i hp
      rw [isPfx_iff] at hp
      obtain ⟨t, ht⟩ := hp
      injection h with h1
      injection h1 with ha hb
      subst ha
      rw [← ht] at hb ⊢
      simp only [List.nil_append]
      rw [List.drop_left] at hb
      rw [hb]
    · rcases h2 : splitFirst pat rest with _ | ⟨a', b'⟩
      · rw [h2] at h; simp at h
      · rw [h2] at h
        simp only [Option.map_some'] at h
        injection h with h1
        injection h1 with ha hb
        subst hb
        have := ih h2
        subst this
        rw [← ha]
        simp

theorem splitFirst_isSome_iff (pat s : Str) :
    (splitFirst pat s).isSome = true ↔ ∃ p, pat <+: s.drop p := by
  constructor
  · intro h
    rcases h2 : splitFirst pat s with _ | ⟨a, b⟩
    · rw [h2] at h; simp at h
    · refine ⟨a.length, ?_⟩
      have := splitFirst_sound h2
      subst this
      rw [List.append_assoc, List.drop_left]
      exact ⟨b, rfl⟩
  · intro ⟨p, hp⟩
    induction s generalizing p with
    | nil =>
      simp only [List.drop_nil] at hp
      obtain ⟨t, ht⟩ := hp
      have hpat : pat = [] := by
        cases pat with
        | nil => rfl
        | cons c cs => simp at ht
      simp [splitFirst, hpat, isPfx]
    | cons c rest ih =>
      cases p with
      | zero =>
        simp only [List.drop_zero] at hp
        simp only [splitFirst, (isPfx_iff pat (c :: rest)).mpr hp, if_true,
          Option.isSome_some]
      | succ q =>
        simp only [List.drop_succ_cons] at hp
        have := ih q hp
        simp only [splitFirst]
        split
        · simp
        · rcases h2 : splitFirst pat rest with _ | ⟨a, b⟩
          · rw [h2] at this; simp at this
          · simp [h2]

/-- Splitting an equation between appends at the length of the shorter
left part. -/
theorem append_eq_append_split {p t u w : Str} (h : p ++ t = u ++ w)
    (hl : u.length ≤ p.length) :
    p.take u.length = u ∧ p.drop u.length ++ t = w := by
  constructor
  · have h1 := congrArg (List.take u.length) h
    rw [List.take_append_eq_append_take, List.take_left,
      Nat.sub_eq_zero_of_le hl, List.take_zero, List.append_nil] at h1
    exact h1
  · have h2 := congrArg (List.drop u.length) h
    rw [List.drop_append_eq_append_drop, List.drop_left,
      Nat.sub_eq_zero_of_le hl, List.drop_zero] at h2
    exact h2

/-- A prefix shorter than the left part of an append is a prefix of that part. -/
theorem pfx_of_pfx_append {pat u v : Str} (h : pat <+: u ++ v)
    (hl : pat.length ≤ u.length) : pat <+: u := by
  obtain ⟨t, ht⟩ := h
  have h1 := (append_eq_append_split ht.symm hl).1
  rw [← h1]
  exact List.take_prefix _ _

/-- A prefix is the take of its length. -/
theorem eq_take_of_pfx {pat z : Str} (h : pat <+: z) : pat = z.take pat.length := by
  obtain ⟨t, rfl⟩ := h
  rw [List.take_left]

/-- If a pattern occurrence starts inside `u` but extends past it into
`c :: y`, the pattern must contain the boundary character `c`. -/
theorem char_mem_of_pfx_cross {pat u y : Str} {c : Char}
    (h : pat <+: u ++ c :: y) (hlen : u.length < pat.length) : c ∈ pat := by
  obtain ⟨t, ht⟩ := h
  have h2 := (append_eq_append_split ht (le_of_lt hlen)).2
  rcases hdq : pat.drop u.length with _ | ⟨d, ds⟩
  · exfalso
    have h3 := congrArg List.length hdq
    rw [List.length_drop] at h3
    simp only [List.length_nil] at h3
    omega
  · rw [hdq] at h2
    simp only [List.cons_append] at h2
    injection h2 with hc _
    subst hc
    exact List.mem_of_mem_drop (hdq ▸ List.mem_cons_self d ds)

/-- Occurrence decomposition: a substring occurrence in `x ++ c :: y` lies
inside `x`, contains the character `c`, or lies inside `y`. -/
theorem contains_append_char {pat x y : Str} {c : Char}
    (h : containsSubB pat (x ++ c :: y) = true) :
    containsSubB pat x = true ∨ c ∈ pat ∨ containsSubB pat y = true := by
  rw [containsSubB, splitFirst_isSome_iff] at h
  obtain ⟨p, hp⟩ := h
  by_cases hpx : p ≤ x.length
  · rw [List.drop_append_eq_append_drop, Nat.sub_eq_zero_of_le hpx,
      List.drop_zero] at hp
    by_cases hlen : pat.length ≤ x.length - p
    · left
      rw [containsSubB, splitFirst_isSome_iff]
      refine ⟨p, pfx_of_pfx_append hp ?_⟩
      rw [List.length_drop]; exact hlen
    · right; left
      refine char_mem_of_pfx_cross hp ?_
      rw [List.length_drop]; omega
  · right; right
    rw [containsSubB, splitFirst_isSome_iff]
    push_neg at hpx
    rw [List.drop_append_eq_append_drop,
      List.drop_eq_nil_of_le (le_of_lt hpx), List.nil_append] at hp
    have h1 : p - x.length = (p - x.length - 1) + 1 := by omega
    rw [h1, List.drop_succ_cons] at hp
    exact ⟨p - x.length - 1, hp⟩

/-- The pattern has no nontrivial border: no proper nonempty prefix of it
is also a suffix.  Both markers satisfy this, which rules out occurrences
of a marker straddling the boundary where that marker itself begins. -/
def borderFreeB (pat : Str) : Bool :=
  (List.range pat.length).all fun k =>
    decide (k = 0) || decide (pat.take k ≠ pat.drop (pat.length - k))

theorem not_pfx_at_of_borderFree {pat a b : Str}
    (hc : containsSubB pat a = false) (hb : borderFreeB pat = true) :
    ∀ p, p < a.length → ¬ pat <+: (a ++ (pat ++ b)).drop p := by
  intro p hp hpre
  rw [List.drop_append_eq_append_drop, Nat.sub_eq_zero_of_le (le_of_lt hp),
    List.drop_zero] at hpre
  have hq : (a.drop p).length = a.length - p := List.length_drop ..
  have hqpos : 0 < a.length - p := Nat.sub_pos_of_lt hp
  by_cases hlen : pat.length ≤ a.length - p
  · have h1 : pat <+: a.drop p := pfx_of_pfx_append hpre (by rw [hq]; exact hlen)
    have h2 : containsSubB pat a = true := by
      rw [containsSubB, splitFirst_isSome_iff]; exact ⟨p, h1⟩
    rw [hc] at h2; exact Bool.false_ne_true h2
  · push_neg at hlen
    obtain ⟨t, ht⟩ := hpre
    have hsplit := append_eq_append_split ht (by rw [hq]; omega)
    obtain ⟨htake, hdrop⟩ := hsplit
    have h3 : pat.drop (a.drop p).length <+: pat :=
      pfx_of_pfx_append ⟨t, hdrop⟩ (by rw [List.length_drop, List.length_drop]; omega)
    have h4 := eq_take_of_pfx h3
    rw [List.length_drop, List.length_drop] at h4
    simp only [borderFreeB, List.all_eq_true, List.mem_range,
      Bool.or_eq_true, decide_eq_true_eq] at hb
    have h5 := hb (pat.length - (a.length - p)) (by omega)
    rcases h5 with h5 | h5
    · omega
    · apply h5
      rw [Nat.sub_sub_self (by omega : a.length - p ≤ pat.length)]
      exact h4.symm

theorem splitFirst_cons_pos {pat : Str} {c : Char} {rest : Str}
    (h : pat <+: c :: rest) :
    splitFirst pat (c :: rest) = some ([], (c :: rest).drop pat.length) := by
  simp only [splitFirst]
  rw [if_pos ((isPfx_iff _ _).mpr h)]

theorem splitFirst_cons_neg {pat : Str} {c : Char} {rest : Str}
    (h : ¬ pat <+: c :: rest) :
    splitFirst pat (c :: rest) =
      (splitFirst pat rest).map fun ab => (c :: ab.1, ab.2) := by
  simp only [splitFirst]
  rw [if_neg]
  intro hpfx
  exact h ((isPfx_iff _ _).mp hpfx)

theorem splitFirst_complete {pat a b : Str} (hpat : pat ≠ [])
    (h : ∀ p, p < a.length → ¬ pat <+: (a ++ (pat ++ b)).drop p) :
    splitFirst pat (a ++ (pat ++ b)) = some (a, b) := by
  induction a with
  | nil =>
    rw [List.nil_append]
    cases pat with
    | nil => exact absurd rfl hpat
    | cons d ds =>
      rw [List.cons_append]
      rw [splitFirst_cons_pos ⟨b, by rw [List.cons_append]⟩]
      rw [← List.cons_append, List.drop_left]
  | cons c a' ih =>
    rw [List.cons_append]
    rw [splitFirst_cons_neg (by
      have h2 := h 0 (by simp)
      rw [List.drop_zero, List.cons_append] at h2
      exact h2)]
    rw [ih (fun p hp => by
      have h2 := h (p + 1) (by simp only [List.length_cons]; omega)
      rwa [List.cons_append, List.drop_succ_cons] at h2)]
    rfl

theorem containsSubB_embed (pat u v : Str) :
    containsSubB pat (u ++ (pat ++ v)) = true := by
  rw [containsSubB, splitFirst_isSome_iff]
  exact ⟨u.length, by rw [List.drop_left]; exact ⟨v, rfl⟩⟩

theorem start_ne_nil : TODO_START ≠ [] := by decide

theorem end_ne_nil : TODO_END ≠ [] := by decide

theorem borderFree_start : borderFreeB TODO_START = true := by decide

theorem borderFree_end : borderFreeB TODO_END = true := by decide

theorem findSpan_of_splits {text a rest x b : Str}
    (h1 : splitFirst TODO_START text = some (a, rest))
    (h2 : splitFirst TODO_END rest = some (x, b)) :
    findSpan text = some (a, x, b) := by
  simp [findSpan, h1, h2]

theorem findSpan_sound {text pre inner post : Str}
    (h : findSpan text = some (pre, inner, post)) :
    text = pre ++ (TODO_START ++ (inner ++ (TODO_END ++ post))) := by
  rw [findSpan] at h
  split at h
  · exact absurd h (by simp)
  · rename_i a rest h1
    split at h
    · exact absurd h (by simp)
    · rename_i x post2 h2
      simp only [Option.some.injEq, Prod.mk.injEq] at h
      obtain ⟨ha, hx, hp⟩ := h
      subst ha; subst hx; subst hp
      have e1 := splitFirst_sound h1
      have e2 := splitFirst_sound h2
      rw [e1, e2]
      simp

theorem findSpan_eq {a x b : Str} (ha : containsSubB TODO_START a = false)
    (hx : containsSubB TODO_END x = false) :
    findSpan (a ++ (TODO_START ++ (x ++ (TODO_END ++ b)))) = some (a, x, b) :=
  findSpan_of_splits
    (splitFirst_complete start_ne_nil
      (not_pfx_at_of_borderFree ha borderFree_start))
    (splitFirst_complete end_ne_nil
      (not_pfx_at_of_borderFree hx borderFree_end))

/-- ASCII scope of Python whitespace (`str.strip`, regex `\s`):
space, tab, newline, carriage return, vertical tab, form feed. -/
def isPySpace (c : Char) : Bool :=
  decide (c = ' ' ∨ c = '\t' ∨ c = '\n' ∨ c = '\r' ∨ c = '\x0b' ∨ c = '\x0c')

/-- ASCII scope of the line boundaries recognised by `str.splitlines`. -/
def isLineBreak (c : Char) : Bool :=
  decide (c = '\n' ∨ c = '\r' ∨ c = '\x0b' ∨ c = '\x0c')

/-- ASCII decimal digit (regex `\d`). -/
def isDig (c : Char) : Bool :=
  decide (c = '0' ∨ c = '1' ∨ c = '2' ∨ c = '3' ∨ c = '4' ∨ c = '5' ∨
    c = '6' ∨ c = '7' ∨ c = '8' ∨ c = '9')

/-- ASCII scope of regex `\w`: letters, digits, underscore. -/
def isWordChar (c : Char) : Bool :=
  isDig c || decide ('a' ≤ c ∧ c ≤ 'z') || decide ('A' ≤ c ∧ c ≤ 'Z') ||
    decide (c = '_')

/-- Python `str.lstrip()` (ASCII whitespace). -/
def lstrip (s : Str) : Str := s.dropWhile isPySpace

/-- Python `str.rstrip()` (ASCII whitespace). -/
def rstrip (s : Str) : Str := (s.reverse.dropWhile isPySpace).reverse

/-- Python `str.strip()` (ASCII whitespace). -/
def strip (s : Str) : Str := rstrip (lstrip s)

/-- Python `str.splitlines()` at ASCII scope: splits at `\n`, `\r`,
`\r\n`, `\x0b`, `\x0c`; a trailing line break does not produce a final
empty line. -/
def splitlines : Str → List Str
  | [] => []
  | '\r' :: '\n' :: rest => [] :: splitlines rest
  | c :: rest =>
    if isLineBreak c then [] :: splitlines rest
    else
      match splitlines rest with
      | [] => [[c]]
      | l :: ls => (c :: l) :: ls

/-- `parse_todo_block` of src/todo_cli.py lines 18-27: find the first
marker span (regex search), return `none` if absent, else the stripped
inner content split into lines (`[]` when the stripped content is empty). -/
def parse_todo_block (text : Str) : Option (List Str) :=
  match findSpan text with
  | none => none
  | some (_, inner, _) =>
    let content := strip inner
    if content.isEmpty then some [] else some (splitlines content)

/-- Python `"\n".join`. -/
def joinNl : List Str → Str
  | [] => []
  | [x] => x
  | x :: xs => x ++ '\n' :: joinNl xs

/-- Python `" ".join`. -/
def joinSp : List Str → Str
  | [] => []
  | [x] => x
  | x :: xs => x ++ ' ' :: joinSp xs

/-- Decimal digits, fuel-driven so that the kernel can evaluate it (the
fuel argument strictly dominates the `n / 10` recursion). -/
def natDigitsAux (fuel n : Nat) : Str :=
  match fuel with
  | 0 => []
  | fuel2 + 1 =>
    if n < 10 then [Char.ofNat (48 + n)]
    else natDigitsAux fuel2 (n / 10) ++ [Char.ofNat (48 + n % 10)]

/-- Decimal digits of a natural number (Python `f"{n}"` for `n : Nat`). -/
def natDigits (n : Nat) : Str := natDigitsAux n n

/-- `ensure_todo_block` of src/todo_cli.py lines 29-35, as a pure text
transform: if both markers occur as substrings nothing happens; otherwise
`"\n" + TODO_START + "\n" + TODO_END + "\n"` is appended (file opened in
append mode).  Returns the new text and the `added` flag. -/
def ensure_todo_block_text (text : Str) : Str × Bool :=
  if containsSubB TODO_START text && containsSubB TODO_END text then
    (text, false)
  else
    (text ++ '\n' :: (TODO_START ++ '\n' :: (TODO_END ++ ['\n'])), true)

/-- The serialized block `f"{TODO_START}\n" + "\n".join(todos) + f"\n{TODO_END}"`
built by `add` (line 176) and `complete` (line 214). -/
def new_block (lines : List Str) : Str :=
  TODO_START ++ '\n' :: (joinNl lines ++ '\n' :: TODO_END)

/-- Python `re.sub(escape(TODO_START) + "(.*?)" + escape(TODO_END), repl,
text, flags=re.DOTALL)` with no `count` argument: every non-overlapping
leftmost-first span is replaced.  The replacement is taken literally
(the blocks this program substitutes contain no template escapes unless a
task line embeds a backslash; the claims proved below never do). -/
def subAll (repl text : Str) : Str :=
  match h : findSpan text with
  | none => text
  | some (pre, _inner, post) => pre ++ (repl ++ subAll repl post)
termination_by text.length
decreasing_by
  have hs := findSpan_sound h
  subst hs
  simp only [List.length_append]
  have h1 : 0 < TODO_START.length := by decide
  omega

/-- The block-writing step shared by `add` (lines 176-185): when both
markers occur as substrings the span regex is substituted over the whole
text, otherwise `"\n" + new_block` is appended. -/
def write_block (text : Str) (lines : List Str) : Str :=
  if containsSubB TODO_START text && containsSubB TODO_END text then
    subAll (new_block lines) text
  else text ++ '\n' :: new_block lines

/-- Python truthiness of an `int | None` (`None` and `0` are falsy). -/
def truthyInt : Option Int → Bool
  | none => false
  | some n => decide (n ≠ 0)

/-- Python truthiness of a `str | None` (`None` and `""` are falsy). -/
def truthyStr : Option Str → Bool
  | none => false
  | some s => !s.isEmpty

/-- `format_priority` of src/todo_cli.py lines 37-39: the dict lookup
`{1: LOW, 2: MEDIUM, 3: HIGH, 4: URGENT}`, empty string when the level is
not a key of the dict. -/
def format_priority (level : Option Int) : Str :=
  match level with
  | none => []
  | some n =>
    if n = 1 then "[LOW]".data
    else if n = 2 then "[MEDIUM]".data
    else if n = 3 then "[HIGH]".data
    else if n = 4 then "[URGENT]".data
    else []

/-- Value of an ASCII digit character. -/
def digitVal (c : Char) : Nat :=
  if c = '0' then 0 else if c = '1' then 1 else if c = '2' then 2
  else if c = '3' then 3 else if c = '4' then 4 else if c = '5' then 5
  else if c = '6' then 6 else if c = '7' then 7 else if c = '8' then 8
  else if c = '9' then 9 else 0

/-- Modelled from CPython `_strptime`: the directive `%Y` compiles to the
regex `\d{4}` (exactly four digits). -/
def parseYear : Str → Option (Nat × Str)
  | a :: b :: c :: d :: rest =>
    if isDig a && isDig b && isDig c && isDig d then
      some (1000 * digitVal a + 100 * digitVal b + 10 * digitVal c +
        digitVal d, rest)
    else none
  | _ => none

/-- Modelled from CPython `_strptime`: `%m` compiles to
`1[0-2]|0[1-9]|[1-9]` — one or two digits, zero padding optional.  The
branches where the regex engine would match a shorter alternative and
then fail on the following literal `-` (or leave unconverted data) are
returned as `none` directly; this preserves the succeed/fail behaviour
and the parsed value of `datetime.strptime`. -/
def parseMonth : Str → Option (Nat × Str)
  | [] => none
  | c1 :: [] =>
    if c1 = '0' then none
    else if isDig c1 then some (digitVal c1, [])
    else none
  | c1 :: c2 :: rest2 =>
    if c1 = '1' then
      (if c2 = '0' ∨ c2 = '1' ∨ c2 = '2' then some (10 + digitVal c2, rest2)
       else if isDig c2 then none
       else some (1, c2 :: rest2))
    else if c1 = '0' then
      (if isDig c2 && decide (c2 ≠ '0') then some (digitVal c2, rest2)
       else none)
    else if isDig c1 then some (digitVal c1, c2 :: rest2)
    else none

/-- Modelled from CPython `_strptime`: `%d` compiles to
`3[01]|[12]\d|0[1-9]|[1-9]` — one or two digits, zero padding optional.
Same convention as `parseMonth` for the shorter-alternative branches. -/
def parseDay : Str → Option (Nat × Str)
  | [] => none
  | c1 :: [] =>
    if c1 = '0' then none
    else if isDig c1 then some (digitVal c1, [])
    else none
  | c1 :: c2 :: rest2 =>
    if c1 = '3' then
      (if c2 = '0' ∨ c2 = '1' then some (30 + digitVal c2, rest2)
       else if isDig c2 then none
       else some (3, c2 :: rest2))
    else if c1 = '1' ∨ c1 = '2' then
      (if isDig c2 then some (10 * digitVal c1 + digitVal c2, rest2)
       else some (digitVal c1, c2 :: rest2))
    else if c1 = '0' then
      (if isDig c2 && decide (c2 ≠ '0') then some (digitVal c2, rest2)
       else none)
    else if isDig c1 then some (digitVal c1, c2 :: rest2)
    else none

/-- Gregorian leap-year rule (as in Python `datetime`). -/
def isLeap (y : Nat) : Bool :=
  decide (y % 4 = 0 ∧ (¬ y % 100 = 0 ∨ y % 400 = 0))

/-- Days in a month (as in Python `datetime`). -/
def daysInMonth (y m : Nat) : Nat :=
  if m = 2 then (if isLeap y then 29 else 28)
  else if m = 4 ∨ m = 6 ∨ m = 9 ∨ m = 11 then 30
  else 31

/-- Range validation performed by the `datetime` constructor
(`MINYEAR = 1`, `MAXYEAR = 9999`, calendar-valid month and day). -/
def validDate (y m d : Nat) : Bool :=
  decide (1 ≤ y ∧ y ≤ 9999 ∧ 1 ≤ m ∧ m ≤ 12 ∧ 1 ≤ d ∧ d ≤ daysInMonth y m)

/-- Modelled from the standard library: `datetime.strptime(s, "%Y-%m-%d")`,
returning the parsed date on success and `none` when a `ValueError` would
be raised (pattern mismatch, unconverted trailing data, or out-of-range
calendar values). -/
def strptime_Ymd (s : Str) : Option (Nat × Nat × Nat) :=
  match parseYear s with
  | none => none
  | some (y, rest0) =>
    match rest0 with
    | '-' :: r1 =>
      (match parseMonth r1 with
       | some (m, '-' :: r2) =>
         (match parseDay r2 with
          | some (d, []) => if validDate y m d then some (y, m, d) else none
          | _ => none)
       | _ => none)
    | _ => none

/-- `build_task_line` of src/todo_cli.py lines 41-54.  The parts list is
assembled under Python truthiness tests; an invalid due date raises
`typer.BadParameter`, modelled as the `error` case. -/
def build_task_line (index : Nat) (task : Str) (priority : Option Int)
    (due : Option Str) (assigned : Option Str) : Except Str Str :=
  let parts1 : List Str :=
    ('(' :: (natDigits index ++ [')'])) ::
      (if truthyInt priority then [format_priority priority] else [])
  let parts2 : List Str := parts1 ++ [task]
  let asgParts : List Str :=
    if truthyStr assigned then [("Assigned: ".data ++ assigned.getD [])]
    else []
  if truthyStr due then
    match strptime_Ymd (due.getD []) with
    | none => .error "Due date must be in YYYY-MM-DD format".data
    | some _ =>
      .ok (joinSp (parts2 ++ [("Due: ".data ++ due.getD [])] ++ asgParts))
  else .ok (joinSp (parts2 ++ asgParts))

/-- The `add` command of src/todo_cli.py lines 154-188 as a text
transform (the target file exists; file I/O replaced by the text value):
`ensure_todo_block` runs first and may already rewrite the file, then the
new task line is built (which can fail on a malformed due date, leaving
the file as `ensure_todo_block` left it), then the block is rewritten.
Returns the final file text and the error message if the command failed. -/
def add_run (text task : Str) (priority : Option Int)
    (due assigned : Option Str) : Str × Option Str :=
  let t1 := (ensure_todo_block_text text).1
  let todos := (parse_todo_block t1).getD []
  match build_task_line (todos.length + 1) task priority due assigned with
  | .error e => (t1, some e)
  | .ok line => (write_block t1 (todos ++ [line]), none)

/-- Python `re.sub(r"^\(\d+\)", f"({n})", todo)`: anchored at the start,
one or more digits between literal parentheses; at most one replacement
(the regex engine takes the maximal digit run, and backtracking cannot
succeed because a shorter run is followed by a digit, not `)`). -/
def renumber (n : Nat) (todo : Str) : Str :=
  match todo with
  | '(' :: rest =>
    if (rest.takeWhile isDig).isEmpty then todo
    else
      match rest.dropWhile isDig with
      | ')' :: tail => '(' :: (natDigits n ++ ')' :: tail)
      | _ => todo
  | _ => todo

/-- The list-level core of `complete`, src/todo_cli.py lines 211-213:
`todos.pop(id)` followed by the renumbering pass
`[re.sub(r"^\(\d+\)", f"({i+1})", todo) for i, todo in enumerate(todos)]`. -/
def complete_update (todos : List Str) (id : Nat) : List Str :=
  ((todos.eraseIdx id).enum).map fun it => renumber (it.1 + 1) it.2

/-- Python `str.lower()` at ASCII scope. -/
def strLower (s : Str) : Str := s.map Char.toLower

/-- Python string comparison `<`: lexicographic on code points. -/
def strLt : Str → Str → Bool
  | _, [] => false
  | [], _ :: _ => true
  | a :: as, b :: bs =>
    if a.toNat < b.toNat then true
    else if b.toNat < a.toNat then false
    else strLt as bs

/-- Stable insertion of `x` before the first element `y` with `le x y`. -/
def pyInsert (le : Str → Str → Bool) (x : Str) : List Str → List Str
  | [] => [x]
  | y :: ys => if le x y then x :: y :: ys else y :: pyInsert le x ys

/-- Stable sort with respect to `le` (insertion sort, folding from the
right so that earlier input elements are inserted in front of later
elements that compare equal). -/
def pySort (le : Str → Str → Bool) : List Str → List Str
  | [] => []
  | x :: xs => pyInsert le x (pySort le xs)

/-- Python `sorted(todos, key=f)`: `sorted` is a stable sort, so over the
total preorder induced by `f` its output is the unique stable
`key`-ascending reordering, which the insertion sort `pySort` computes. -/
def sortByKey (f : Str → Str) (todos : List Str) : List Str :=
  pySort (fun x y => !strLt (f y) (f x)) todos

/-- Python `sorted(todos, key=f, reverse=True)`: each comparison is
reversed, ties keep their original relative order. -/
def sortByKeyRev (f : Str → Str) (todos : List Str) : List Str :=
  pySort (fun x y => !strLt (f x) (f y)) todos

/-- The sentinel date used by `extract_due` for lines with no match. -/
def DUE_SENTINEL : Str := "9999-12-31".data

/-- Attempted match of the regex `Due:\s*(\d{4}-\d{2}-\d{2})` at the
start of a string: the literal `Due:`, then a maximal whitespace run
(`\s*` is greedy; giving back characters can never help because `\s` and
`\d` are disjoint), then the ten-character date group, which captures
regardless of what follows. -/
def matchDueAt (s : Str) : Option Str :=
  if isPfx "Due:".data s then
    match (s.drop 4).dropWhile isPySpace with
    | a :: b :: c :: d :: '-' :: e :: f :: '-' :: g :: h :: _ =>
      if isDig a && isDig b && isDig c && isDig d && isDig e && isDig f &&
         isDig g && isDig h then
        some [a, b, c, d, '-', e, f, '-', g, h]
      else none
    | _ => none
  else none

/-- Left-to-right scan of `re.search` for the due-date pattern. -/
def scanDue : Str → Option Str
  | [] => none
  | c :: rest =>
    match matchDueAt (c :: rest) with
    | some v => some v
    | none => scanDue rest

/-- `extract_due` of src/todo_cli.py lines 101-103. -/
def extract_due (todo : Str) : Str := (scanDue todo).getD DUE_SENTINEL

/-- Attempted match of the regex `Assigned:\s*(\w+)` at the start of a
string: literal `Assigned:`, maximal whitespace run, then a maximal
nonempty word-character run, lower-cased by the caller. -/
def matchAsgAt (s : Str) : Option Str :=
  if isPfx "Assigned:".data s then
    let r := (s.drop 9).dropWhile isPySpace
    let w := r.takeWhile isWordChar
    if w.isEmpty then none else some (w.map Char.toLower)
  else none

/-- Left-to-right scan of `re.search` for the assignee pattern. -/
def scanAsg : Str → Option Str
  | [] => none
  | c :: rest =>
    match matchAsgAt (c :: rest) with
    | some v => some v
    | none => scanAsg rest

/-- `extract_assigned` of src/todo_cli.py lines 105-107. -/
def extract_assigned (todo : Str) : Str := (scanAsg todo).getD []

/-- The sort dispatch of the `list` command, src/todo_cli.py lines
115-130, applied to one file's task lines.  The `descending_id` branch
executes `todos = list(reversed(todos))`, but at that point the name
`list` resolves to the module-level CLI command function `list` (which
shadows the builtin), so the call passes a `reversed` iterator as the
`path` argument and `find_python_files(path)` raises `AttributeError`
(`rglob` on a non-`Path`); modelled as the `error` case. -/
def apply_sort (sortKey : Option Str) (todos : List Str) :
    Except Str (List Str) :=
  match sortKey with
  | none => .ok todos
  | some k =>
    if k = "ascending_id".data then .ok todos
    else if k = "descending_id".data then .error "AttributeError".data
    else if k = "a-z".data then .ok (sortByKey strLower todos)
    else if k = "z-a".data then .ok (sortByKeyRev strLower todos)
    else if k = "ascending_due_date".data then
      .ok (sortByKey extract_due todos)
    else if k = "descending_due_date".data then
      .ok (sortByKeyRev extract_due todos)
    else if k = "a-z_assignedname".data then
      .ok (sortByKey extract_assigned todos)
    else if k = "z-a_assignedname".data then
      .ok (sortByKeyRev extract_assigned todos)
    else .ok todos

/-- A task line that carries a leading parenthesized-number label:
`(` then a nonempty digit run then `)`. -/
def HasLabel (s : Str) : Bool :=
  match s with
  | '(' :: rest =>
    !(rest.takeWhile isDig).isEmpty &&
      (match rest.dropWhile isDig with
       | ')' :: _ => true
       | _ => false)
  | _ => false

/-- The text after the leading label of a labelled task line. -/
def stripLabel (s : Str) : Str :=
  match s with
  | '(' :: rest =>
    (match rest.dropWhile isDig with
     | ')' :: tail => tail
     | _ => s)
  | _ => s

theorem renumber_of_hasLabel {s : Str} (n : Nat) (h : HasLabel s = true) :
    renumber n s = '(' :: (natDigits n ++ ')' :: stripLabel s) := by
  match s with
  | [] => simp [HasLabel] at h
  | c :: rest =>
    by_cases hc : c = '('
    · subst hc
      simp only [HasLabel, Bool.and_eq_true, Bool.not_eq_eq_eq_not,
        Bool.not_true] at h
      obtain ⟨h1, h2⟩ := h
      rcases hdr : rest.dropWhile isDig with _ | ⟨c2, tail⟩
      · rw [hdr] at h2; simp at h2
      · rw [hdr] at h2
        by_cases hc2 : c2 = ')'
        · subst hc2
          simp only [renumber, stripLabel, hdr]
          rw [if_neg (by simp_all)]
        · exfalso
          cases c2 <;> simp_all [hdr]
    · cases c <;> simp_all [HasLabel, renumber, stripLabel]

/-- C7: on a block of labelled task lines, `complete` removes the line at
the requested 0-based position and renumbers the remaining lines so that
their leading labels are exactly `(1)`..`(N-1)` in order, leaving the
rest of each line (including any other digits in it) unchanged. -/
theorem complete_renumbers (todos : List Str) (id : Nat)
    (hlab : ∀ l ∈ todos, HasLabel l = true) (hid : id < todos.length) :
    (complete_update todos id).length = todos.length - 1 ∧
    ∀ i, i < todos.length - 1 →
      ∃ t, (todos.eraseIdx id)[i]? = some t ∧
        (complete_update todos id)[i]? =
          some ('(' :: (natDigits (i + 1) ++ ')' :: stripLabel t)) := by
  have hlen : (todos.eraseIdx id).length = todos.length - 1 := by
    rw [List.length_eraseIdx]; simp [hid]
  constructor
  · simp [complete_update, List.length_map, List.enum_length, hlen]
  · intro i hi
    have hi2 : i < (todos.eraseIdx id).length := by omega
    have ht : (todos.eraseIdx id)[i]? = some (todos.eraseIdx id)[i] :=
      List.getElem?_eq_getElem hi2
    refine ⟨(todos.eraseIdx id)[i], ht, ?_⟩
    have hmem : (todos.eraseIdx id)[i] ∈ todos :=
      List.mem_of_mem_eraseIdx (List.getElem_mem hi2)
    rw [complete_update, List.getElem?_map, List.getElem?_enum, ht]
    simp only [Option.map_some']
    rw [renumber_of_hasLabel (i + 1) (hlab _ hmem)]

/-- Witness for C7 at a concrete block of three labelled tasks,
completing the middle one. -/
theorem complete_renumbers_witness :
    (complete_update ["(1) a".data, "(2) b".data, "(3) c".data] 1).length = 2 ∧
    complete_update ["(1) a".data, "(2) b".data, "(3) c".data] 1 =
      ["(1) a".data, "(2) c".data] := by
  constructor
  · exact (complete_renumbers ["(1) a".data, "(2) b".data, "(3) c".data] 1
      (by decide) (by decide)).1
  · decide

/-- C2: selecting the sort key `descending_id` does not reverse the task
lines; the branch `todos = list(reversed(todos))` calls the CLI command
function `list` (which shadows the builtin `list`), and the command body
immediately fails on `path.rglob` with an `AttributeError`. -/
theorem descending_id_crashes :
    apply_sort (some "descending_id".data) ["(1) a".data, "(2) b".data] =
      Except.error "AttributeError".data ∧
    (apply_sort (some "descending_id".data)
      ["(1) a".data, "(2) b".data]).isOk = false := ⟨rfl, rfl⟩

theorem joinSp_cons_cons (x y : Str) (l : List Str) :
    joinSp (x :: y :: l) = x ++ ' ' :: joinSp (y :: l) := rfl

theorem joinSp_insert (label pri t : Str) (rest : List Str) :
    joinSp (label :: pri :: t :: rest) =
      label ++ ' ' :: (pri ++ ' ' :: joinSp (t :: rest)) := by
  rw [joinSp_cons_cons, joinSp_cons_cons]

/-- C5 (counterexample): priority 5 is outside 1-4 but does not produce
the same line as an absent priority: the parts list still receives the
empty rendering of the priority token, so the join emits two consecutive
spaces. -/
theorem priority_out_of_range_counterexample :
    build_task_line 1 "fix".data (some 5) none none =
      Except.ok "(1)  fix".data ∧
    build_task_line 1 "fix".data none none none =
      Except.ok "(1) fix".data ∧
    ("(1)  fix".data : Str) ≠ "(1) fix".data := by
  refine ⟨rfl, rfl, by decide⟩

/-- C5 (amended): a priority of `0` or `None` is falsy and yields exactly
the no-priority line; any other priority value appends the rendering of
`format_priority` as a separate space-joined field — `[LOW]`/`[MEDIUM]`/
`[HIGH]`/`[URGENT]` for 1-4, and the empty string for every other value,
which therefore produces two consecutive spaces after the index field
instead of reproducing the no-priority line. -/
theorem format_priority_cases (idx : Nat) (task : Str) (due asg : Option Str)
    (p : Int) (hp : p ≠ 0) :
    (build_task_line idx task (some 0) due asg =
      build_task_line idx task none due asg) ∧
    (format_priority (some 1) = "[LOW]".data ∧
     format_priority (some 2) = "[MEDIUM]".data ∧
     format_priority (some 3) = "[HIGH]".data ∧
     format_priority (some 4) = "[URGENT]".data) ∧
    (p ≠ 1 → p ≠ 2 → p ≠ 3 → p ≠ 4 → format_priority (some p) = []) ∧
    ((∃ e, build_task_line idx task (some p) due asg = .error e) ↔
      (∃ e, build_task_line idx task none due asg = .error e)) ∧
    (∀ rest, build_task_line idx task none due asg =
        .ok (('(' :: (natDigits idx ++ [')'])) ++ ' ' :: rest) →
      build_task_line idx task (some p) due asg =
        .ok (('(' :: (natDigits idx ++ [')'])) ++
          ' ' :: (format_priority (some p) ++ ' ' :: rest))) := by
  have htr : truthyInt (some p) = true := by simp [truthyInt, hp]
  refine ⟨rfl, ⟨rfl, rfl, rfl, rfl⟩, ?_, ?_, ?_⟩
  · intro h1 h2 h3 h4
    simp [format_priority, h1, h2, h3, h4]
  · by_cases hdue : truthyStr due = true
    · rcases hst : strptime_Ymd (due.getD []) with _ | v
      · simp [build_task_line, htr, hdue, hst]
      · simp [build_task_line, htr, hdue, hst]
    · simp only [Bool.not_eq_true] at hdue
      simp [build_task_line, htr, hdue]
  · intro rest hrest
    by_cases hdue : truthyStr due = true
    · rcases hst : strptime_Ymd (due.getD []) with _ | v
      · simp [build_task_line, htr, hdue, hst] at hrest
      · have e1 : build_task_line idx task none due asg =
            .ok (joinSp (('(' :: (natDigits idx ++ [')'])) :: task ::
              ("Due: ".data ++ due.getD []) ::
              (if truthyStr asg = true then
                [("Assigned: ".data ++ asg.getD [])] else []))) := by
          simp [build_task_line, hdue, hst, truthyInt]
        have e2 : build_task_line idx task (some p) due asg =
            .ok (joinSp (('(' :: (natDigits idx ++ [')'])) ::
              format_priority (some p) :: task ::
              ("Due: ".data ++ due.getD []) ::
              (if truthyStr asg = true then
                [("Assigned: ".data ++ asg.getD [])] else []))) := by
          simp [build_task_line, htr, hdue, hst]
        rw [e1, joinSp_cons_cons] at hrest
        simp only [Except.ok.injEq] at hrest
        have h5 := List.append_cancel_left hrest
        injection h5 with _ h6
        rw [e2, joinSp_insert, h6]
    · simp only [Bool.not_eq_true] at hdue
      have e1 : build_task_line idx task none due asg =
          .ok (joinSp (('(' :: (natDigits idx ++ [')'])) :: task ::
            (if truthyStr asg = true then
              [("Assigned: ".data ++ asg.getD [])] else []))) := by
        simp [build_task_line, hdue, truthyInt]
      have e2 : build_task_line idx task (some p) due asg =
          .ok (joinSp (('(' :: (natDigits idx ++ [')'])) ::
            format_priority (some p) :: task ::
            (if truthyStr asg = true then
              [("Assigned: ".data ++ asg.getD [])] else []))) := by
        simp [build_task_line, htr, hdue]
      rw [e1, joinSp_cons_cons] at hrest
      simp only [Except.ok.injEq] at hrest
      have h5 := List.append_cancel_left hrest
      injection h5 with _ h6
      rw [e2, joinSp_insert, h6]

/-- Witness for C5 at priority 7: the empty token is inserted, doubling
the space after the index field. -/
theorem format_priority_cases_witness :
    build_task_line 2 "t".data (some 7) none none =
      Except.ok (('(' :: (natDigits 2 ++ [')'])) ++
        ' ' :: (format_priority (some 7) ++ ' ' :: "t".data)) :=
  (format_priority_cases 2 "t".data none none 7 (by decide)).2.2.2.2
    "t".data rfl

/-- C3 (amended): `add` with a truthy due string rejected by
`datetime.strptime` fails with the malformed-due-date error and performs
no block rewrite, but `ensure_todo_block` has already run before the due
date is validated: a file already containing both markers is left
unchanged, while a file missing a marker has the empty block
`"\n" + TODO_START + "\n" + TODO_END + "\n"` appended despite the
failure. -/
theorem add_malformed_due (text task : Str) (p : Option Int)
    (asg : Option Str) (due : Str) (hne : due ≠ [])
    (hbad : strptime_Ymd due = none) :
    (add_run text task p (some due) asg).2 =
      some "Due date must be in YYYY-MM-DD format".data ∧
    ((containsSubB TODO_START text && containsSubB TODO_END text) = true →
      (add_run text task p (some due) asg).1 = text) ∧
    ((containsSubB TODO_START text && containsSubB TODO_END text) = false →
      (add_run text task p (some due) asg).1 =
        text ++ '\n' :: (TODO_START ++ '\n' :: (TODO_END ++ ['\n']))) := by
  have htr : truthyStr (some due) = true := by simp [truthyStr, hne]
  have hbuild : ∀ n, build_task_line n task p (some due) asg =
      .error "Due date must be in YYYY-MM-DD format".data := by
    intro n
    simp [build_task_line, htr, hbad]
  refine ⟨by simp [add_run, hbuild], ?_, ?_⟩
  · intro hcond
    simp [add_run, hbuild, ensure_todo_block_text, hcond]
  · intro hcond
    simp [add_run, hbuild, ensure_todo_block_text, hcond]

/-- Witness for C3: `2024-02-30` is not a real calendar date; on a file
that already has a block the text survives unchanged, on a marker-less
file the empty block is appended. -/
theorem add_malformed_due_witness :
    ("2024-02-30".data : Str) ≠ [] ∧
    strptime_Ymd "2024-02-30".data = none ∧
    (add_run (TODO_START ++ '\n' :: TODO_END) "t".data none
      (some "2024-02-30".data) none).1 = TODO_START ++ '\n' :: TODO_END := by
  refine ⟨by decide, by decide, ?_⟩
  exact (add_malformed_due (TODO_START ++ '\n' :: TODO_END) "t".data none
    none "2024-02-30".data (by decide) (by decide)).2.1 (by decide)

/-- C3 (counterexample): on the marker-less file `x = 1`, `add` with due
`2024-02-30` fails but the file text has been modified by the block
initialization that `add` performs before validating the date. -/
theorem add_malformed_due_counterexample :
    (add_run "x = 1".data "t".data none
      (some "2024-02-30".data) none).2.isSome = true ∧
    (add_run "x = 1".data "t".data none
      (some "2024-02-30".data) none).1 ≠ "x = 1".data := by
  exact ⟨rfl, by decide⟩

theorem strLt_irrefl : ∀ a : Str, strLt a a = false := by
  intro a
  induction a with
  | nil => rfl
  | cons c cs ih => simp [strLt, ih]

theorem strLt_asymm : ∀ {a b : Str}, strLt a b = true → strLt b a = false := by
  intro a
  induction a with
  | nil =>
    intro b h
    cases b with
    | nil => simp [strLt] at h
    | cons bb bs => rfl
  | cons cc cs ih =>
    intro b h
    cases b with
    | nil => simp [strLt] at h
    | cons bb bs =>
      by_cases h1 : cc.toNat < bb.toNat
      · have h2 : ¬ bb.toNat < cc.toNat := by omega
        simp [strLt, h1, h2]
      · by_cases h2 : bb.toNat < cc.toNat
        · simp [strLt, h1, h2] at h
        · have h3 : strLt cs bs = true := by simpa [strLt, h1, h2] using h
          simp [strLt, h1, h2, ih h3]

theorem strLt_co_trans : ∀ (c a b : Str), strLt c a = true →
    strLt c b = true ∨ strLt b a = true := by
  intro c
  induction c with
  | nil =>
    intro a b h
    cases a with
    | nil => simp [strLt] at h
    | cons aa as =>
      cases b with
      | nil => right; simp [strLt]
      | cons bb bs => left; simp [strLt]
  | cons cc cs ih =>
    intro a b h
    cases a with
    | nil => simp [strLt] at h
    | cons aa as =>
      cases b with
      | nil => right; simp [strLt]
      | cons bb bs =>
        by_cases h1 : cc.toNat < bb.toNat
        · left; simp [strLt, h1]
        · by_cases h2 : bb.toNat < aa.toNat
          · right; simp [strLt, h2]
          · by_cases h3 : cc.toNat < aa.toNat
            · omega
            · by_cases h4 : aa.toNat < cc.toNat
              · simp [strLt, h3, h4] at h
              · have h5 : strLt cs as = true := by
                  simpa [strLt, h3, h4] using h
                have h6 : ¬ bb.toNat < cc.toNat := by omega
                have h8 : ¬ aa.toNat < bb.toNat := by omega
                rcases ih as bs h5 with h9 | h9
                · left; simp [strLt, h1, h6, h9]
                · right; simp [strLt, h2, h8, h9]

theorem mem_pyInsert (le : Str → Str → Bool) (x z : Str) :
    ∀ l, z ∈ pyInsert le x l ↔ z = x ∨ z ∈ l := by
  intro l
  induction l with
  | nil => simp [pyInsert]
  | cons y ys ih =>
    by_cases h : le x y = true
    · simp [pyInsert, h]
    · have hf : le x y = false := by rwa [Bool.not_eq_true] at h
      simp [pyInsert, hf, ih]
      tauto

theorem pyInsert_pairwise (le : Str → Str → Bool)
    (hTotal : ∀ a b, le a b = true ∨ le b a = true)
    (hTrans : ∀ a b c, le a b = true → le b c = true → le a c = true)
    (x : Str) : ∀ l, l.Pairwise (fun u v => le u v = true) →
      (pyInsert le x l).Pairwise (fun u v => le u v = true) := by
  intro l
  induction l with
  | nil =>
    intro _
    simp [pyInsert]
  | cons y ys ih =>
    intro h
    rw [List.pairwise_cons] at h
    obtain ⟨hy, hys⟩ := h
    by_cases hxy : le x y = true
    · simp only [pyInsert, hxy, if_true]
      rw [List.pairwise_cons]
      refine ⟨?_, List.pairwise_cons.mpr ⟨hy, hys⟩⟩
      intro z hz
      rcases List.mem_cons.mp hz with rfl | hz2
      · exact hxy
      · exact hTrans x y z hxy (hy z hz2)
    · have hf : le x y = false := by rwa [Bool.not_eq_true] at hxy
      simp only [pyInsert, hf, Bool.false_eq_true, if_false]
      rw [List.pairwise_cons]
      refine ⟨?_, ih hys⟩
      intro z hz
      rcases (mem_pyInsert le x z ys).mp hz with hz1 | hz2
      · rw [hz1]
        rcases hTotal x y with h1 | h1
        · exact absurd h1 hxy
        · exact h1
      · exact hy z hz2

theorem pySort_pairwise (le : Str → Str → Bool)
    (hTotal : ∀ a b, le a b = true ∨ le b a = true)
    (hTrans : ∀ a b c, le a b = true → le b c = true → le a c = true) :
    ∀ l, (pySort le l).Pairwise (fun u v => le u v = true) := by
  intro l
  induction l with
  | nil => simp [pySort]
  | cons x xs ih => exact pyInsert_pairwise le hTotal hTrans x _ ih

/-- The ascending key sort produces key-nondecreasing output. -/
theorem sortByKey_pairwise (f : Str → Str) (todos : List Str) :
    (sortByKey f todos).Pairwise (fun u v => strLt (f v) (f u) = false) := by
  have htot : ∀ a b : Str,
      (!strLt (f b) (f a)) = true ∨ (!strLt (f a) (f b)) = true := by
    intro a b
    by_cases hab : strLt (f b) (f a) = true
    · right; rw [strLt_asymm hab]; rfl
    · left; rw [Bool.not_eq_true] at hab; rw [hab]; rfl
  have htr : ∀ a b c : Str, (!strLt (f b) (f a)) = true →
      (!strLt (f c) (f b)) = true → (!strLt (f c) (f a)) = true := by
    intro a b c h1 h2
    simp only [Bool.not_eq_eq_eq_not, Bool.not_true] at h1 h2 ⊢
    cases hx : strLt (f c) (f a)
    · rfl
    · rcases strLt_co_trans (f c) (f a) (f b) hx with h5 | h5
      · rw [h2] at h5; exact absurd h5 (by simp)
      · rw [h1] at h5; exact absurd h5 (by simp)
  have h := pySort_pairwise (fun x y => !strLt (f y) (f x)) htot htr todos
  rw [sortByKey]
  refine h.imp ?_
  intro a b hab
  simpa using hab

/-- The reversed key sort produces key-nonincreasing output. -/
theorem sortByKeyRev_pairwise (f : Str → Str) (todos : List Str) :
    (sortByKeyRev f todos).Pairwise (fun u v => strLt (f u) (f v) = false) := by
  have htot : ∀ a b : Str,
      (!strLt (f a) (f b)) = true ∨ (!strLt (f b) (f a)) = true := by
    intro a b
    by_cases hab : strLt (f a) (f b) = true
    · right; rw [strLt_asymm hab]; rfl
    · left; rw [Bool.not_eq_true] at hab; rw [hab]; rfl
  have htr : ∀ a b c : Str, (!strLt (f a) (f b)) = true →
      (!strLt (f b) (f c)) = true → (!strLt (f a) (f c)) = true := by
    intro a b c h1 h2
    simp only [Bool.not_eq_eq_eq_not, Bool.not_true] at h1 h2 ⊢
    cases hx : strLt (f a) (f c)
    · rfl
    · rcases strLt_co_trans (f a) (f c) (f b) hx with h5 | h5
      · rw [h1] at h5; exact absurd h5 (by simp)
      · rw [h2] at h5; exact absurd h5 (by simp)
  have h := pySort_pairwise (fun x y => !strLt (f x) (f y)) htot htr todos
  rw [sortByKeyRev]
  refine h.imp ?_
  intro a b hab
  simpa using hab

/-- C4 (amended): a line with no due-date match is keyed as the sentinel
`9999-12-31`; under `ascending_due_date` it therefore appears after every
line whose extracted key is strictly smaller, but under
`descending_due_date` the comparison is reversed, so it appears before
every such line (missing-due sorts last ascending and first descending). -/
theorem missing_due_sentinel_position (todos : List Str) :
    (∀ l ∈ todos, scanDue l = none → extract_due l = DUE_SENTINEL) ∧
    (apply_sort (some "ascending_due_date".data) todos =
      Except.ok (sortByKey extract_due todos)) ∧
    (apply_sort (some "descending_due_date".data) todos =
      Except.ok (sortByKeyRev extract_due todos)) ∧
    (∀ i j (hi : i < (sortByKey extract_due todos).length)
        (hj : j < (sortByKey extract_due todos).length),
      extract_due ((sortByKey extract_due todos)[i]) = DUE_SENTINEL →
      strLt (extract_due ((sortByKey extract_due todos)[j]))
        DUE_SENTINEL = true →
      j < i) ∧
    (∀ i j (hi : i < (sortByKeyRev extract_due todos).length)
        (hj : j < (sortByKeyRev extract_due todos).length),
      extract_due ((sortByKeyRev extract_due todos)[i]) = DUE_SENTINEL →
      strLt (extract_due ((sortByKeyRev extract_due todos)[j]))
        DUE_SENTINEL = true →
      i < j) := by
  refine ⟨?_, rfl, rfl, ?_, ?_⟩
  · intro l _ h
    simp [extract_due, h]
  · intro i j hi hj h1 h2
    have hpw := sortByKey_pairwise extract_due todos
    rw [List.pairwise_iff_getElem] at hpw
    rcases Nat.lt_trichotomy i j with hij | hij | hij
    · have h3 := hpw i j hi hj hij
      rw [h1] at h3
      rw [h3] at h2
      exact absurd h2 (by simp)
    · subst hij
      rw [h1] at h2
      rw [strLt_irrefl] at h2
      exact absurd h2 (by simp)
    · exact hij
  · intro i j hi hj h1 h2
    have hpw := sortByKeyRev_pairwise extract_due todos
    rw [List.pairwise_iff_getElem] at hpw
    rcases Nat.lt_trichotomy i j with hij | hij | hij
    · exact hij
    · subst hij
      rw [h1] at h2
      rw [strLt_irrefl] at h2
      exact absurd h2 (by simp)
    · have h3 := hpw j i hj hi hij
      rw [h1] at h3
      rw [h3] at h2
      exact absurd h2 (by simp)

/-- Witness for C4 on a two-line block: the dated line keeps position 0
ascending, and the theorem places the missing-due line strictly after it. -/
theorem missing_due_sentinel_position_witness :
    sortByKey extract_due ["(1) a Due: 2024-05-01".data, "(2) b".data] =
      ["(1) a Due: 2024-05-01".data, "(2) b".data] ∧ (0 : Nat) < 1 := by
  constructor
  · decide
  · exact (missing_due_sentinel_position
      ["(1) a Due: 2024-05-01".data, "(2) b".data]).2.2.2.1 1 0 (by decide)
      (by decide) (by decide) (by decide)

/-- C4 (counterexample): under `descending_due_date` the line without a
due date (sentinel key `9999-12-31`, the largest key) comes FIRST, not
last: the claim that missing-due stays last in both directions fails. -/
theorem missing_due_sentinel_counterexample :
    apply_sort (some "descending_due_date".data)
      ["(1) a Due: 2024-05-01".data, "(2) b".data] =
      Except.ok ["(2) b".data, "(1) a Due: 2024-05-01".data] ∧
    scanDue "(2) b".data = none ∧
    scanDue "(1) a Due: 2024-05-01".data = some "2024-05-01".data ∧
    ("(2) b".data : Str) ≠ "(1) a Due: 2024-05-01".data := by
  refine ⟨rfl, by decide, by decide, by decide⟩

theorem dig_not_space {c : Char} (h : isDig c = true) : isPySpace c = false := by
  simp only [isDig, decide_eq_true_eq] at h
  rcases h with rfl | rfl | rfl | rfl | rfl | rfl | rfl | rfl | rfl | rfl <;>
    decide

theorem word_not_space {c : Char} (h : isWordChar c = true) :
    isPySpace c = false := by
  cases hs : isPySpace c
  · rfl
  · exfalso
    simp only [isPySpace, decide_eq_true_eq] at hs
    rcases hs with rfl | rfl | rfl | rfl | rfl | rfl <;> simp [isWordChar, isDig] at h

theorem matchDueAt_none {s : Str} (h : ¬ "Due:".data <+: s) :
    matchDueAt s = none := by
  rw [matchDueAt, if_neg]
  intro hp
  exact h ((isPfx_iff _ _).mp hp)

theorem matchAsgAt_none {s : Str} (h : ¬ "Assigned:".data <+: s) :
    matchAsgAt s = none := by
  rw [matchAsgAt, if_neg]
  intro hp
  exact h ((isPfx_iff _ _).mp hp)

theorem scanDue_append {x y : Str}
    (h : ∀ p, p < x.length → ¬ "Due:".data <+: (x ++ y).drop p) :
    scanDue (x ++ y) = scanDue y := by
  induction x with
  | nil => rw [List.nil_append]
  | cons c xs ih =>
    rw [List.cons_append]
    have h0 : matchDueAt (c :: (xs ++ y)) = none := by
      apply matchDueAt_none
      have := h 0 (by simp)
      rwa [List.drop_zero, List.cons_append] at this
    rw [scanDue, h0]
    exact ih fun p hp => by
      have h2 := h (p + 1) (by simp only [List.length_cons]; omega)
      rwa [List.cons_append, List.drop_succ_cons] at h2

theorem scanAsg_append {x y : Str}
    (h : ∀ p, p < x.length → ¬ "Assigned:".data <+: (x ++ y).drop p) :
    scanAsg (x ++ y) = scanAsg y := by
  induction x with
  | nil => rw [List.nil_append]
  | cons c xs ih =>
    rw [List.cons_append]
    have h0 : matchAsgAt (c :: (xs ++ y)) = none := by
      apply matchAsgAt_none
      have := h 0 (by simp)
      rwa [List.drop_zero, List.cons_append] at this
    rw [scanAsg, h0]
    exact ih fun p hp => by
      have h2 := h (p + 1) (by simp only [List.length_cons]; omega)
      rwa [List.cons_append, List.drop_succ_cons] at h2

/-- Exact shape of the capture group `\d{4}-\d{2}-\d{2}`. -/
def DateShape (s : Str) : Bool :=
  match s with
  | [a, b, c, d, e, f, g, h, i, j] =>
    isDig a && isDig b && isDig c && isDig d && decide (e = '-') &&
      isDig f && isDig g && decide (h = '-') && isDig i && isDig j
  | _ => false

theorem takeWhile_all_append {p : Char → Bool} {w t : Str}
    (h : ∀ c ∈ w, p c = true) :
    (w ++ t).takeWhile p = w ++ t.takeWhile p := by
  induction w with
  | nil => rw [List.nil_append, List.nil_append]
  | cons c cs ih =>
    have hc := h c (by simp)
    have ih2 := ih fun d hd => h d (by simp [hd])
    simp [List.takeWhile_cons, hc, ih2]

theorem matchDueAt_hit {date : Str} (post : Str) (hd : DateShape date = true) :
    matchDueAt ("Due:".data ++ ' ' :: (date ++ post)) = some date := by
  match date, hd with
  | [a, b, c, d, e, f, g, h, i, j], hd =>
    simp only [DateShape, Bool.and_eq_true, decide_eq_true_eq] at hd
    obtain ⟨⟨⟨⟨⟨⟨⟨⟨⟨ha, hb⟩, hc⟩, hdd⟩, he⟩, hf⟩, hg⟩, hh⟩, hi⟩, hj⟩ := hd
    subst he; subst hh
    rw [matchDueAt, if_pos (by rw [isPfx_iff]; exact ⟨_, rfl⟩)]
    have hdrop : (("Due:".data ++
        ' ' :: ([a, b, c, d, '-', f, g, '-', i, j] ++ post)).drop 4) =
        ' ' :: ([a, b, c, d, '-', f, g, '-', i, j] ++ post) := rfl
    rw [hdrop]
    rw [List.dropWhile_cons_of_pos (by decide)]
    rw [List.cons_append, List.dropWhile_cons_of_neg (by
      rw [dig_not_space ha]; exact Bool.false_ne_true)]
    simp [ha, hb, hc, hdd, hf, hg, hi, hj]

theorem matchAsgAt_hit {w : Str} (post2 : Str) (hw : w ≠ [])
    (hwall : ∀ c ∈ w, isWordChar c = true)
    (hpost : post2.takeWhile isWordChar = []) :
    matchAsgAt ("Assigned:".data ++ ' ' :: (w ++ post2)) =
      some (w.map Char.toLower) := by
  rw [matchAsgAt, if_pos (by rw [isPfx_iff]; exact ⟨_, rfl⟩)]
  have hdrop : (("Assigned:".data ++ ' ' :: (w ++ post2)).drop 9) =
      ' ' :: (w ++ post2) := rfl
  rw [hdrop]
  rw [List.dropWhile_cons_of_pos (by decide)]
  rcases w with _ | ⟨c, cs⟩
  · exact absurd rfl hw
  · rw [List.cons_append, List.dropWhile_cons_of_neg (by
      rw [word_not_space (hwall c (by simp))]; exact Bool.false_ne_true)]
    have hkey : List.takeWhile isWordChar (c :: (cs ++ post2)) = c :: cs := by
      rw [← List.cons_append, takeWhile_all_append hwall, hpost,
        List.append_nil]
    simp [hkey]

theorem scanDue_cons_hit {c : Char} {rest : Str} {v : Str}
    (h : matchDueAt (c :: rest) = some v) : scanDue (c :: rest) = some v := by
  rw [scanDue, h]

theorem scanAsg_cons_hit {c : Char} {rest : Str} {v : Str}
    (h : matchAsgAt (c :: rest) = some v) : scanAsg (c :: rest) = some v := by
  rw [scanAsg, h]

/-- C10 (amended): the due-date and assignee sort keys come from the
first regex match anywhere in the full line text, so a line whose
description embeds the literal text `Due: <date>` (resp. `Assigned:
<word>`) supplies that value as the sort key even though it is not a real
metadata field; for assignees the captured key is the first maximal run
of word characters (letters, digits, underscore) after the whitespace
following `Assigned:`, lower-cased — so a multi-word or punctuated name
contributes only that first word-character run. -/
theorem extract_embedded (pre date post pre2 w post2 : Str)
    (hd : DateShape date = true)
    (h1 : ∀ p, p < pre.length →
      ¬ "Due:".data <+: (pre ++ ("Due:".data ++ ' ' :: (date ++ post))).drop p)
    (hw : w ≠ []) (hwall : ∀ c ∈ w, isWordChar c = true)
    (h2 : ∀ p, p < pre2.length →
      ¬ "Assigned:".data <+:
        (pre2 ++ ("Assigned:".data ++ ' ' :: (w ++ post2))).drop p)
    (hpost : post2.takeWhile isWordChar = []) :
    extract_due (pre ++ ("Due:".data ++ ' ' :: (date ++ post))) = date ∧
    extract_assigned (pre2 ++ ("Assigned:".data ++ ' ' :: (w ++ post2))) =
      w.map Char.toLower := by
  constructor
  · rw [extract_due, scanDue_append h1]
    have hs : scanDue ("Due:".data ++ ' ' :: (date ++ post)) = some date :=
      scanDue_cons_hit (matchDueAt_hit post hd)
    rw [hs]
    rfl
  · rw [extract_assigned, scanAsg_append h2]
    have hs : scanAsg ("Assigned:".data ++ ' ' :: (w ++ post2)) =
        some (w.map Char.toLower) :=
      scanAsg_cons_hit (matchAsgAt_hit post2 hw hwall hpost)
    rw [hs]
    rfl

/-- Witness for C10: the date embedded mid-description is extracted, and
the hyphenated assignee keys by its first word-character run only. -/
theorem extract_embedded_witness :
    extract_due ("(1) fix ".data ++
      ("Due:".data ++ ' ' :: ("2024-05-01".data ++ " x".data))) =
      "2024-05-01".data ∧
    extract_assigned ("(2) y ".data ++
      ("Assigned:".data ++ ' ' :: ("Mary".data ++ "-Jane".data))) =
      "mary".data :=
  extract_embedded "(1) fix ".data "2024-05-01".data " x".data
    "(2) y ".data "Mary".data "-Jane".data (by decide) (by decide)
    (by decide) (by decide) (by decide) (by decide)

/-- The first whitespace-free word of a string: written from the claim's
wording for C10, to be compared with what `extract_assigned` captures. -/
def firstNonWsWord (s : Str) : Str := s.takeWhile (fun c => !isPySpace c)

/-- C10 (counterexample): for the assignee text `mary-jane smith` the
code keys on `mary` (the `\w+` capture stops at the hyphen), which is not
the first whitespace-free word `mary-jane` of the assignee text. -/
theorem extract_assigned_counterexample :
    extract_assigned "(1) x Assigned: mary-jane smith".data = "mary".data ∧
    (firstNonWsWord "mary-jane smith".data).map Char.toLower =
      "mary-jane".data ∧
    ("mary".data : Str) ≠ "mary-jane".data := by
  refine ⟨by decide, by decide, by decide⟩

/-- Python `int(s)` on a digit string. -/
def strToNat (s : Str) : Nat := s.foldl (fun acc c => 10 * acc + digitVal c) 0

theorem strToNat_one (a : Char) : strToNat [a] = digitVal a := by
  simp [strToNat]

theorem strToNat_two (a b : Char) :
    strToNat [a, b] = 10 * digitVal a + digitVal b := by
  simp [strToNat]

theorem strToNat_four (a b c d : Char) :
    strToNat [a, b, c, d] =
      1000 * digitVal a + 100 * digitVal b + 10 * digitVal c + digitVal d := by
  simp [strToNat]
  ring

/-- Declarative reading of the strings `datetime.strptime(s, "%Y-%m-%d")`
accepts: four year digits, one or two month digits, one or two day
digits, separated by literal dashes, denoting a calendar-valid date. -/
def LooseYmd (s : Str) : Prop :=
  ∃ ys ms ds : Str,
    s = ys ++ '-' :: (ms ++ '-' :: ds) ∧
    ys.length = 4 ∧ (∀ c ∈ ys, isDig c = true) ∧
    (ms.length = 1 ∨ ms.length = 2) ∧ (∀ c ∈ ms, isDig c = true) ∧
    (ds.length = 1 ∨ ds.length = 2) ∧ (∀ c ∈ ds, isDig c = true) ∧
    validDate (strToNat ys) (strToNat ms) (strToNat ds) = true

theorem isDig_cases {c : Char} (h : isDig c = true) :
    c = '0' ∨ c = '1' ∨ c = '2' ∨ c = '3' ∨ c = '4' ∨ c = '5' ∨ c = '6' ∨
      c = '7' ∨ c = '8' ∨ c = '9' := by
  simpa [isDig] using h

theorem daysInMonth_le (y m : Nat) : daysInMonth y m ≤ 31 := by
  rw [daysInMonth]
  split
  · split <;> omega
  · split <;> omega

theorem parseYear_sound {s : Str} {y : Nat} {r : Str}
    (h : parseYear s = some (y, r)) :
    ∃ ys, s = ys ++ r ∧ ys.length = 4 ∧ (∀ c ∈ ys, isDig c = true) ∧
      strToNat ys = y := by
  rcases s with _ | ⟨a, s⟩
  · simp [parseYear] at h
  rcases s with _ | ⟨b, s⟩
  · simp [parseYear] at h
  rcases s with _ | ⟨c, s⟩
  · simp [parseYear] at h
  rcases s with _ | ⟨d, rest⟩
  · simp [parseYear] at h
  simp only [parseYear] at h
  by_cases hdig : (isDig a && isDig b && isDig c && isDig d) = true
  · rw [if_pos hdig] at h
    simp only [Option.some.injEq, Prod.mk.injEq] at h
    obtain ⟨hy, hr⟩ := h
    subst hr
    simp only [Bool.and_eq_true] at hdig
    obtain ⟨⟨⟨ha, hb⟩, hc⟩, hd⟩ := hdig
    refine ⟨[a, b, c, d], rfl, rfl, ?_, ?_⟩
    · intro e he
      simp only [List.mem_cons, List.mem_singleton] at he
      rcases he with rfl | rfl | rfl | rfl | he
      · exact ha
      · exact hb
      · exact hc
      · exact hd
      · simp at he
    · rw [strToNat_four, ← hy]
  · rw [if_neg hdig] at h
    simp at h

theorem parseYear_complete {ys : Str} (r : Str) (h4 : ys.length = 4)
    (hd : ∀ c ∈ ys, isDig c = true) :
    parseYear (ys ++ r) = some (strToNat ys, r) := by
  rcases ys with _ | ⟨a, ys⟩
  · simp at h4
  rcases ys with _ | ⟨b, ys⟩
  · simp at h4
  rcases ys with _ | ⟨c, ys⟩
  · simp at h4
  rcases ys with _ | ⟨d, ys⟩
  · simp at h4
  rcases ys with _ | ⟨e, ys⟩
  · simp only [List.cons_append, List.nil_append, parseYear]
    rw [if_pos (by
      simp only [Bool.and_eq_true]
      exact ⟨⟨⟨hd a (by simp), hd b (by simp)⟩, hd c (by simp)⟩,
        hd d (by simp)⟩)]
    rw [strToNat_four]
  · simp at h4

theorem parseMonth_sound {r1 : Str} {m : Nat} {r3 : Str}
    (h : parseMonth r1 = some (m, '-' :: r3)) :
    ∃ ms, r1 = ms ++ '-' :: r3 ∧ (ms.length = 1 ∨ ms.length = 2) ∧
      (∀ c ∈ ms, isDig c = true) ∧ strToNat ms = m := by
  rcases r1 with _ | ⟨c1, rest1⟩
  · simp [parseMonth] at h
  rcases rest1 with _ | ⟨c2, rest2⟩
  · simp only [parseMonth] at h
    by_cases h0 : c1 = '0'
    · rw [if_pos h0] at h
      simp at h
    · rw [if_neg h0] at h
      by_cases hdg : isDig c1 = true
      · rw [if_pos hdg] at h
        simp at h
      · rw [if_neg hdg] at h
        simp at h
  · simp only [parseMonth] at h
    by_cases h1 : c1 = '1'
    · subst h1
      rw [if_pos rfl] at h
      by_cases h2 : c2 = '0' ∨ c2 = '1' ∨ c2 = '2'
      · rw [if_pos h2] at h
        simp only [Option.some.injEq, Prod.mk.injEq] at h
        obtain ⟨hm, hr⟩ := h
        refine ⟨['1', c2], by rw [hr]; rfl, Or.inr rfl, ?_, ?_⟩
        · intro e he
          simp only [List.mem_cons, List.mem_singleton] at he
          rcases he with rfl | rfl | he
          · decide
          · rcases h2 with rfl | rfl | rfl <;> decide
          · simp at he
        · rw [strToNat_two]
          have hv : digitVal '1' = 1 := rfl
          rw [hv]
          omega
      · rw [if_neg h2] at h
        by_cases h3 : isDig c2 = true
        · rw [if_pos h3] at h
          simp at h
        · rw [if_neg h3] at h
          simp only [Option.some.injEq, Prod.mk.injEq] at h
          obtain ⟨hm, hr⟩ := h
          injection hr with hc2 hrest
          subst hc2
          subst hrest
          refine ⟨['1'], rfl, Or.inl rfl, ?_, ?_⟩
          · intro e he
            simp only [List.mem_singleton] at he
            subst he
            decide
          · rw [strToNat_one, ← hm]
            decide
    · rw [if_neg h1] at h
      by_cases h0 : c1 = '0'
      · subst h0
        rw [if_pos rfl] at h
        by_cases h2 : (isDig c2 && decide (c2 ≠ '0')) = true
        · rw [if_pos h2] at h
          simp only [Option.some.injEq, Prod.mk.injEq] at h
          obtain ⟨hm, hr⟩ := h
          rw [Bool.and_eq_true, decide_eq_true_eq] at h2
          refine ⟨['0', c2], by rw [hr]; rfl, Or.inr rfl, ?_, ?_⟩
          · intro e he
            simp only [List.mem_cons, List.mem_singleton] at he
            rcases he with rfl | rfl | he
            · decide
            · exact h2.1
            · simp at he
          · rw [strToNat_two]
            have hv : digitVal '0' = 0 := rfl
            rw [hv]
            omega
        · rw [if_neg h2] at h
          simp at h
      · rw [if_neg h0] at h
        by_cases hdg : isDig c1 = true
        · rw [if_pos hdg] at h
          simp only [Option.some.injEq, Prod.mk.injEq] at h
          obtain ⟨hm, hr⟩ := h
          refine ⟨[c1], by rw [hr]; rfl, Or.inl rfl, ?_, ?_⟩
          · intro e he
            simp only [List.mem_singleton] at he
            subst he
            exact hdg
          · rw [strToNat_one, ← hm]
        · rw [if_neg hdg] at h
          simp at h

theorem parseDay_sound {r : Str} {d : Nat} (h : parseDay r = some (d, [])) :
    (r.length = 1 ∨ r.length = 2) ∧ (∀ c ∈ r, isDig c = true) ∧
      strToNat r = d := by
  rcases r with _ | ⟨c1, rest1⟩
  · simp [parseDay] at h
  rcases rest1 with _ | ⟨c2, rest2⟩
  · simp only [parseDay] at h
    by_cases h0 : c1 = '0'
    · rw [if_pos h0] at h
      simp at h
    · rw [if_neg h0] at h
      by_cases hdg : isDig c1 = true
      · rw [if_pos hdg] at h
        simp only [Option.some.injEq, Prod.mk.injEq] at h
        obtain ⟨hd2, _⟩ := h
        refine ⟨Or.inl rfl, ?_, ?_⟩
        · intro e he
          simp only [List.mem_singleton] at he
          subst he
          exact hdg
        · rw [strToNat_one, hd2]
      · rw [if_neg hdg] at h
        simp at h
  · simp only [parseDay] at h
    by_cases h3 : c1 = '3'
    · subst h3
      rw [if_pos rfl] at h
      by_cases h2 : c2 = '0' ∨ c2 = '1'
      · rw [if_pos h2] at h
        simp only [Option.some.injEq, Prod.mk.injEq] at h
        obtain ⟨hv, hr⟩ := h
        subst hr
        refine ⟨Or.inr rfl, ?_, ?_⟩
        · intro e he
          simp only [List.mem_cons, List.mem_singleton] at he
          rcases he with rfl | rfl | he
          · decide
          · rcases h2 with rfl | rfl <;> decide
          · simp at he
        · rw [strToNat_two]
          have hv3 : digitVal '3' = 3 := rfl
          rw [hv3]
          omega
      · rw [if_neg h2] at h
        by_cases hdg : isDig c2 = true
        · rw [if_pos hdg] at h
          simp at h
        · rw [if_neg hdg] at h
          simp at h
    · rw [if_neg h3] at h
      by_cases h12 : c1 = '1' ∨ c1 = '2'
      · rw [if_pos h12] at h
        by_cases hdg : isDig c2 = true
        · rw [if_pos hdg] at h
          simp only [Option.some.injEq, Prod.mk.injEq] at h
          obtain ⟨hv, hr⟩ := h
          subst hr
          refine ⟨Or.inr rfl, ?_, ?_⟩
          · intro e he
            simp only [List.mem_cons, List.mem_singleton] at he
            rcases he with rfl | rfl | he
            · rcases h12 with rfl | rfl <;> decide
            · exact hdg
            · simp at he
          · rw [strToNat_two]
            omega
        · rw [if_neg hdg] at h
          simp at h
      · rw [if_neg h12] at h
        by_cases h0 : c1 = '0'
        · subst h0
          rw [if_pos rfl] at h
          by_cases hb : (isDig c2 && decide (c2 ≠ '0')) = true
          · rw [if_pos hb] at h
            simp only [Option.some.injEq, Prod.mk.injEq] at h
            obtain ⟨hv, hr⟩ := h
            subst hr
            rw [Bool.and_eq_true, decide_eq_true_eq] at hb
            refine ⟨Or.inr rfl, ?_, ?_⟩
            · intro e he
              simp only [List.mem_cons, List.mem_singleton] at he
              rcases he with rfl | rfl | he
              · decide
              · exact hb.1
              · simp at he
            · rw [strToNat_two]
              have hv0 : digitVal '0' = 0 := rfl
              rw [hv0]
              omega
          · rw [if_neg hb] at h
            simp at h
        · rw [if_neg h0] at h
          by_cases hdg : isDig c1 = true
          · rw [if_pos hdg] at h
            simp at h
          · rw [if_neg hdg] at h
            simp at h

theorem parseMonth_complete {ms : Str} (r3 : Str)
    (hlen : ms.length = 1 ∨ ms.length = 2) (hd : ∀ c ∈ ms, isDig c = true)
    (h1 : 1 ≤ strToNat ms) (h2 : strToNat ms ≤ 12) :
    parseMonth (ms ++ '-' :: r3) = some (strToNat ms, '-' :: r3) := by
  rcases ms with _ | ⟨m1, ms2⟩
  · rcases hlen with h | h <;> simp at h
  rcases ms2 with _ | ⟨m2, ms3⟩
  · rcases isDig_cases (hd m1 (by simp)) with
      rfl | rfl | rfl | rfl | rfl | rfl | rfl | rfl | rfl | rfl <;>
      first
        | (simp [parseMonth, strToNat_one, digitVal, isDig]; done)
        | (exfalso; rw [strToNat_one] at h1; simp [digitVal] at h1; done)
  · rcases ms3 with _ | ⟨m3, ms4⟩
    · rcases isDig_cases (hd m1 (by simp)) with
        rfl | rfl | rfl | rfl | rfl | rfl | rfl | rfl | rfl | rfl <;>
        rcases isDig_cases (hd m2 (by simp)) with
          rfl | rfl | rfl | rfl | rfl | rfl | rfl | rfl | rfl | rfl <;>
        first
          | (simp [parseMonth, strToNat_two, digitVal, isDig]; done)
          | (exfalso; rw [strToNat_two] at h1; simp [digitVal] at h1; done)
          | (exfalso; rw [strToNat_two] at h2; simp [digitVal] at h2; done)
    · rcases hlen with h | h <;> simp at h

theorem parseDay_complete {ds : Str}
    (hlen : ds.length = 1 ∨ ds.length = 2) (hd : ∀ c ∈ ds, isDig c = true)
    (h1 : 1 ≤ strToNat ds) (h2 : strToNat ds ≤ 31) :
    parseDay ds = some (strToNat ds, []) := by
  rcases ds with _ | ⟨d1, ds2⟩
  · rcases hlen with h | h <;> simp at h
  rcases ds2 with _ | ⟨d2, ds3⟩
  · rcases isDig_cases (hd d1 (by simp)) with
      rfl | rfl | rfl | rfl | rfl | rfl | rfl | rfl | rfl | rfl <;>
      first
        | (simp [parseDay, strToNat_one, digitVal, isDig]; done)
        | (exfalso; rw [strToNat_one] at h1; simp [digitVal] at h1; done)
  · rcases ds3 with _ | ⟨d3, ds4⟩
    · rcases isDig_cases (hd d1 (by simp)) with
        rfl | rfl | rfl | rfl | rfl | rfl | rfl | rfl | rfl | rfl <;>
        rcases isDig_cases (hd d2 (by simp)) with
          rfl | rfl | rfl | rfl | rfl | rfl | rfl | rfl | rfl | rfl <;>
        first
          | (simp [parseDay, strToNat_two, digitVal, isDig]; done)
          | (exfalso; rw [strToNat_two] at h1; simp [digitVal] at h1; done)
          | (exfalso; rw [strToNat_two] at h2; simp [digitVal] at h2; done)
    · rcases hlen with h | h <;> simp at h

theorem strptime_isSome_iff (s : Str) :
    (∃ v, strptime_Ymd s = some v) ↔ LooseYmd s := by
  constructor
  · rintro ⟨v, hv⟩
    rw [strptime_Ymd] at hv
    split at hv
    · simp at hv
    · rename_i y rest0 hy
      split at hv
      · rename_i r1 hrest
        split at hv
        · rename_i m r2 hm
          split at hv
          · rename_i d hd
            split at hv
            · rename_i hval
              obtain ⟨ys, hys, h4, hysd, hynat⟩ := parseYear_sound hy
              obtain ⟨ms, hms, hmlen, hmd, hmnat⟩ := parseMonth_sound hm
              obtain ⟨h2len, h2d, h2nat⟩ := parseDay_sound hd
              refine ⟨ys, ms, r2, ?_, h4, hysd, hmlen, hmd, h2len, h2d, ?_⟩
              · rw [hys, hms]
              · rw [hynat, hmnat, h2nat]
                exact hval
            · simp at hv
          · simp at hv
        · simp at hv
      · simp at hv
  · rintro ⟨ys, ms, ds, hs, h4, hysd, hmlen, hmd, hdlen, hdd, hval⟩
    subst hs
    rw [validDate, decide_eq_true_eq] at hval
    obtain ⟨hy1, hy2, hm1, hm2, hd1, hd2⟩ := hval
    refine ⟨(strToNat ys, strToNat ms, strToNat ds), ?_⟩
    simp only [strptime_Ymd,
      parseYear_complete ('-' :: (ms ++ '-' :: ds)) h4 hysd,
      parseMonth_complete ds hmlen hmd hm1 hm2,
      parseDay_complete hdlen hdd hd1
        (le_trans hd2 (daysInMonth_le (strToNat ys) (strToNat ms)))]
    rw [if_pos]
    rw [validDate, decide_eq_true_eq]
    exact ⟨hy1, hy2, hm1, hm2, hd1, hd2⟩

/-- C6 (amended): `build_task_line` raises the malformed-due-date error
for a truthy due string exactly when the string is not accepted by
`strptime("%Y-%m-%d")`, whose format is a 4-digit year and 1-or-2-digit
month and day (zero padding optional, so accepted strings need not be in
zero-padded YYYY-MM-DD form) denoting a real calendar date. -/
theorem due_error_iff (idx : Nat) (task : Str) (p : Option Int)
    (asg : Option Str) (due : Str) (hne : due ≠ []) :
    ((∃ e, build_task_line idx task p (some due) asg = .error e) ↔
      ¬ LooseYmd due) := by
  have htr : truthyStr (some due) = true := by simp [truthyStr, hne]
  constructor
  · rintro ⟨e, he⟩ hl
    obtain ⟨v, hv⟩ := (strptime_isSome_iff due).mpr hl
    simp [build_task_line, htr, hv] at he
  · intro hl
    have hnone : strptime_Ymd due = none := by
      rcases hst : strptime_Ymd due with _ | v
      · rfl
      · exact absurd ((strptime_isSome_iff due).mp ⟨v, hst⟩) hl
    exact ⟨"Due date must be in YYYY-MM-DD format".data,
      by simp [build_task_line, htr, hnone]⟩

/-- Witness for C6: `2024-1-5` (not zero-padded) is accepted, so by the
theorem it satisfies the loose format. -/
theorem due_error_iff_witness :
    build_task_line 1 "t".data none (some "2024-1-5".data) none =
      Except.ok "(1) t Due: 2024-1-5".data ∧ LooseYmd "2024-1-5".data := by
  refine ⟨rfl, ?_⟩
  by_contra hno
  obtain ⟨e, he⟩ :=
    (due_error_iff 1 "t".data none none "2024-1-5".data (by decide)).mpr hno
  rw [show build_task_line 1 "t".data none (some "2024-1-5".data) none =
    Except.ok "(1) t Due: 2024-1-5".data from rfl] at he
  exact absurd he (by simp)

/-- C6 (counterexample): the due string `2024-1-5` is accepted without
error although it is not in exact zero-padded YYYY-MM-DD form (it has
length 8, not 10, and fails the `\d{4}-\d{2}-\d{2}` shape). -/
theorem due_zero_padding_counterexample :
    build_task_line 1 "t".data none (some "2024-1-5".data) none =
      Except.ok "(1) t Due: 2024-1-5".data ∧
    ("2024-1-5".data).length = 8 ∧
    DateShape "2024-1-5".data = false := by
  exact ⟨rfl, by decide, by decide⟩

theorem break_imp_space {c : Char} (h : isLineBreak c = true) :
    isPySpace c = true := by
  simp only [isLineBreak, decide_eq_true_eq] at h
  rcases h with rfl | rfl | rfl | rfl <;> decide

theorem dropWhile_head_not (p : Char → Bool) :
    ∀ s : Str, s.dropWhile p = [] ∨
      ∃ c t, s.dropWhile p = c :: t ∧ p c = false := by
  intro s
  induction s with
  | nil => left; rfl
  | cons c cs ih =>
    by_cases h : p c = true
    · rw [List.dropWhile_cons_of_pos h]
      exact ih
    · rw [List.dropWhile_cons_of_neg h]
      right
      exact ⟨c, cs, rfl, by rwa [Bool.not_eq_true] at h⟩

theorem rstrip_pfx (z : Str) : rstrip z <+: z := by
  rw [rstrip]
  have h1 : z.reverse.dropWhile isPySpace <:+ z.reverse :=
    List.dropWhile_suffix _
  have h2 := (List.reverse_prefix).mpr h1
  rwa [List.reverse_reverse] at h2

/-- The stripped string is empty, or begins and ends with non-whitespace. -/
theorem strip_head_last (inner : Str) :
    strip inner = [] ∨
    ((∃ c t, strip inner = c :: t ∧ isPySpace c = false) ∧
     (∃ c, (strip inner).getLast? = some c ∧ isPySpace c = false)) := by
  rcases dropWhile_head_not isPySpace inner with hz | ⟨c, t, hz, hc⟩
  · left
    rw [strip, lstrip, hz]
    rfl
  · right
    rw [strip, lstrip, hz]
    have hne : (c :: t).reverse.dropWhile isPySpace ≠ [] := by
      rw [Ne, List.dropWhile_eq_nil_iff]
      intro hall
      have := hall c (by simp)
      rw [hc] at this
      exact Bool.false_ne_true this
    constructor
    · have hpfx := rstrip_pfx (c :: t)
      obtain ⟨t2, ht2⟩ := hpfx
      rcases hr : rstrip (c :: t) with _ | ⟨c2, r2⟩
      · exfalso
        apply hne
        rw [rstrip] at hr
        have := congrArg List.length hr
        simp only [List.length_reverse, List.length_nil] at this
        exact List.eq_nil_of_length_eq_zero this
      · rw [hr] at ht2
        simp only [List.cons_append] at ht2
        injection ht2 with hc2 _
        exact ⟨c2, r2, rfl, hc2 ▸ hc⟩
    · rw [rstrip, List.getLast?_reverse]
      rcases dropWhile_head_not isPySpace (c :: t).reverse with h2 | ⟨c2, t2, h2, hc2⟩
      · exact absurd h2 hne
      · rw [h2]
        exact ⟨c2, rfl, hc2⟩

theorem splitlines_rn (rest : Str) :
    splitlines ('\r' :: '\n' :: rest) = [] :: splitlines rest := rfl

theorem splitlines_cons_not_break {c : Char} (rest : Str)
    (h : isLineBreak c = false) :
    splitlines (c :: rest) =
      match splitlines rest with
      | [] => [[c]]
      | l :: ls => (c :: l) :: ls := by
  rw [splitlines.eq_def]
  split
  · rename_i heq
    exact absurd heq (by simp)
  · rename_i rest2 heq
    injection heq with h1 h2
    subst h1
    simp [isLineBreak] at h
  · rename_i c2 rest2 hshape heq
    injection heq with h1 h2
    subst h1
    subst h2
    rw [if_neg (by rw [h]; exact Bool.false_ne_true)]

theorem splitlines_break_eq {c : Char} {rest : Str}
    (hb : isLineBreak c = true)
    (hshape : ∀ rest2, c = '\r' → rest = '\n' :: rest2 → False) :
    splitlines (c :: rest) = [] :: splitlines rest := by
  rw [splitlines.eq_def]
  split
  · rename_i heq
    exact absurd heq (by simp)
  · rename_i rest2 heq
    injection heq with h1 h2
    exact absurd h2 (fun h3 => hshape rest2 h1 h3)
  · rename_i c2 rest2 hsh heq
    injection heq with h1 h2
    subst h1
    subst h2
    rw [if_pos hb]

theorem splitlines_head {c : Char} (t : Str) (h : isLineBreak c = false) :
    ∃ l ls, splitlines (c :: t) = l :: ls ∧ l ≠ [] := by
  rw [splitlines_cons_not_break t h]
  rcases hs : splitlines t with _ | ⟨l, ls⟩
  · exact ⟨[c], [], rfl, by simp⟩
  · exact ⟨c :: l, ls, rfl, by simp⟩

theorem splitlines_ne_nil {s : Str} (hne : s ≠ []) : splitlines s ≠ [] := by
  induction s using splitlines.induct with
  | case1 => exact absurd rfl hne
  | case2 rest ih =>
    rw [splitlines_rn]
    simp
  | case3 c rest hshape hb ih =>
    rw [splitlines_break_eq hb hshape]
    simp
  | case4 c rest hshape hnb hsp ih =>
    have hb : isLineBreak c = false := by rwa [Bool.not_eq_true] at hnb
    rw [splitlines_cons_not_break rest hb, hsp]
    simp
  | case5 c rest hshape hnb l ls hsp ih =>
    have hb : isLineBreak c = false := by rwa [Bool.not_eq_true] at hnb
    rw [splitlines_cons_not_break rest hb, hsp]
    simp

theorem splitlines_last : ∀ (s : Str),
    (∀ c, s.getLast? = some c → isLineBreak c = false) →
    s = [] ∨ (splitlines s ≠ [] ∧
      ∀ l, (splitlines s).getLast? = some l → l ≠ []) := by
  intro s
  induction s using splitlines.induct with
  | case1 =>
    intro _
    left
    rfl
  | case2 rest ih =>
    intro hc
    right
    by_cases hrest : rest = []
    · subst hrest
      exfalso
      have h1 := hc '\n' rfl
      simp [isLineBreak] at h1
    · have hlast : ('\r' :: '\n' :: rest).getLast? = rest.getLast? := by
        rcases rest with _ | ⟨r1, rest2⟩
        · exact absurd rfl hrest
        · rw [List.getLast?_cons_cons, List.getLast?_cons_cons]
      have ih2 := ih (fun c2 hc2 => hc c2 (by rw [hlast]; exact hc2))
      rcases ih2 with rfl | ⟨hne, hl⟩
      · exact absurd rfl hrest
      · constructor
        · rw [splitlines_rn]
          simp
        · intro l hl2
          rw [splitlines_rn] at hl2
          rcases hsp : splitlines rest with _ | ⟨l2, ls2⟩
          · exact absurd hsp hne
          · rw [hsp, List.getLast?_cons_cons] at hl2
            apply hl
            rw [hsp]
            exact hl2
  | case3 c rest hshape hb ih =>
    intro hc
    right
    by_cases hrest : rest = []
    · subst hrest
      exfalso
      have h1 := hc c rfl
      rw [hb] at h1
      exact absurd h1 (by simp)
    · have hlast : (c :: rest).getLast? = rest.getLast? := by
        rcases rest with _ | ⟨r1, rest2⟩
        · exact absurd rfl hrest
        · rw [List.getLast?_cons_cons]
      have ih2 := ih (fun c2 hc2 => hc c2 (by rw [hlast]; exact hc2))
      rcases ih2 with rfl | ⟨hne, hl⟩
      · exact absurd rfl hrest
      · constructor
        · rw [splitlines_break_eq hb hshape]
          simp
        · intro l hl2
          rw [splitlines_break_eq hb hshape] at hl2
          rcases hsp : splitlines rest with _ | ⟨l2, ls2⟩
          · exact absurd hsp hne
          · rw [hsp, List.getLast?_cons_cons] at hl2
            apply hl
            rw [hsp]
            exact hl2
  | case4 c rest hshape hnb hsp ih =>
    intro hc
    right
    have hb : isLineBreak c = false := by rwa [Bool.not_eq_true] at hnb
    have heq : splitlines (c :: rest) = [[c]] := by
      rw [splitlines_cons_not_break rest hb, hsp]
    rw [heq]
    refine ⟨by simp, ?_⟩
    intro l hl
    simp only [List.getLast?_singleton, Option.some.injEq] at hl
    rw [← hl]
    simp
  | case5 c rest hshape hnb l ls hsp ih =>
    intro hc
    right
    have hb : isLineBreak c = false := by rwa [Bool.not_eq_true] at hnb
    have heq : splitlines (c :: rest) = (c :: l) :: ls := by
      rw [splitlines_cons_not_break rest hb, hsp]
    have hrne : rest ≠ [] := by
      rintro rfl
      rw [show splitlines [] = [] from rfl] at hsp
      exact absurd hsp (by simp)
    have hlast : (c :: rest).getLast? = rest.getLast? := by
      rcases rest with _ | ⟨r1, rest2⟩
      · exact absurd rfl hrne
      · rw [List.getLast?_cons_cons]
    have ih2 := ih (fun c2 hc2 => hc c2 (by rw [hlast]; exact hc2))
    rcases ih2 with rfl | ⟨hne, hl⟩
    · exact absurd rfl hrne
    · constructor
      · rw [heq]
        simp
      · intro l2 hl2
        rw [heq] at hl2
        rcases ls with _ | ⟨m, ms⟩
        · simp only [List.getLast?_singleton, Option.some.injEq] at hl2
          rw [← hl2]
          simp
        · rw [List.getLast?_cons_cons] at hl2
          apply hl
          rw [hsp, List.getLast?_cons_cons]
          exact hl2

theorem splitFirst_min {pat s a b : Str} (h : splitFirst pat s = some (a, b)) :
    ∀ p, p < a.length → ¬ pat <+: s.drop p := by
  induction s generalizing a with
  | nil =>
    intro p hp
    simp only [splitFirst] at h
    split at h
    · simp only [Option.some.injEq, Prod.mk.injEq] at h
      obtain ⟨ha, _⟩ := h
      rw [← ha] at hp
      simp at hp
    · exact absurd h (by simp)
  | cons c rest ih =>
    intro p hp
    simp only [splitFirst] at h
    split at h
    · simp only [Option.some.injEq, Prod.mk.injEq] at h
      obtain ⟨ha, _⟩ := h
      rw [← ha] at hp
      simp at hp
    · rename_i hneg
      rcases h2 : splitFirst pat rest with _ | ⟨a2, b2⟩
      · rw [h2] at h
        simp at h
      · rw [h2] at h
        simp only [Option.map_some', Option.some.injEq, Prod.mk.injEq] at h
        obtain ⟨ha, hb⟩ := h
        subst hb
        cases p with
        | zero =>
          rw [List.drop_zero]
          intro hpfx
          exact hneg ((isPfx_iff _ _).mpr hpfx)
        | succ q =>
          rw [List.drop_succ_cons]
          apply ih h2
          rw [← ha] at hp
          simp only [List.length_cons] at hp
          omega

theorem findSpan_isSome_iff (text : Str) :
    (findSpan text).isSome = true ↔
      ∃ a x b, text = a ++ (TODO_START ++ (x ++ (TODO_END ++ b))) := by
  constructor
  · intro h
    rcases hf : findSpan text with _ | ⟨⟨a, x, b⟩⟩
    · rw [hf] at h
      simp at h
    · exact ⟨a, x, b, findSpan_sound hf⟩
  · rintro ⟨a, x, b, rfl⟩
    have h1 : (splitFirst TODO_START
        (a ++ (TODO_START ++ (x ++ (TODO_END ++ b))))).isSome = true :=
      containsSubB_embed TODO_START a _
    rcases hs : splitFirst TODO_START (a ++ (TODO_START ++ (x ++ (TODO_END ++ b))))
      with _ | ⟨a2, rest⟩
    · rw [hs] at h1
      simp at h1
    · have hsound := splitFirst_sound hs
      have hmin := splitFirst_min hs
      have hle : a2.length ≤ a.length := by
        by_contra hgt
        push_neg at hgt
        apply hmin a.length hgt
        rw [List.drop_left]
        exact ⟨x ++ (TODO_END ++ b), rfl⟩
      have hrest : (a ++ (TODO_START ++ (x ++ (TODO_END ++ b)))).drop
          (a2.length + TODO_START.length) = rest := by
        rw [hsound, ← List.drop_drop]
        rw [show (a2 ++ TODO_START ++ rest).drop a2.length =
          TODO_START ++ rest by
            rw [List.append_assoc, List.drop_left]]
        rw [List.drop_left]
      have hpos : TODO_END <+:
          (a ++ (TODO_START ++ (x ++ (TODO_END ++ b)))).drop
            (a.length + TODO_START.length + x.length) := by
        rw [show a ++ (TODO_START ++ (x ++ (TODO_END ++ b))) =
          ((a ++ TODO_START) ++ x) ++ (TODO_END ++ b) by simp]
        rw [show a.length + TODO_START.length + x.length =
          ((a ++ TODO_START) ++ x).length by simp [Nat.add_assoc]]
        rw [List.drop_left]
        exact ⟨b, rfl⟩
      have hk : ∃ k, TODO_END <+: rest.drop k := by
        refine ⟨a.length + TODO_START.length + x.length -
          (a2.length + TODO_START.length), ?_⟩
        rw [← hrest, List.drop_drop]
        rw [show a2.length + TODO_START.length +
          (a.length + TODO_START.length + x.length -
            (a2.length + TODO_START.length)) =
          a.length + TODO_START.length + x.length by omega]
        exact hpos
      have h2 : (splitFirst TODO_END rest).isSome = true := by
        rw [splitFirst_isSome_iff]
        exact hk
      rcases he : splitFirst TODO_END rest with _ | ⟨xx, bb⟩
      · rw [he] at h2
        simp at h2
      · simp [findSpan, hs, he]

theorem parse_none_iff_findSpan (text : Str) :
    parse_todo_block text = none ↔ findSpan text = none := by
  rw [parse_todo_block]
  rcases hf : findSpan text with _ | ⟨⟨a, x, b⟩⟩
  · simp
  · simp only [Option.some.injEq]
    constructor
    · intro h
      split at h <;> simp at h
    · intro h
      simp at h

theorem parse_some_eq {text pre inner post : Str}
    (hf : findSpan text = some (pre, inner, post)) :
    parse_todo_block text =
      if (strip inner).isEmpty then some []
      else some (splitlines (strip inner)) := by
  simp [parse_todo_block, hf]

/-- C9 (amended): `parse_block` returns None exactly when no
start-to-end marker span exists in the text; otherwise it returns the
trimmed inner content split into lines, where fully blank content yields
the empty sequence and the FIRST and LAST returned lines are non-empty —
but interior lines may be empty strings (a blank line inside the block
survives the outer trim). -/
theorem parse_block_cases (text : Str) :
    ((parse_todo_block text = none) ↔
      ¬ ∃ a x b, text = a ++ (TODO_START ++ (x ++ (TODO_END ++ b)))) ∧
    (∀ L, parse_todo_block text = some L →
      L.head? ≠ some [] ∧ ∀ l, L.getLast? = some l → l ≠ []) := by
  constructor
  · rw [parse_none_iff_findSpan, ← findSpan_isSome_iff]
    rcases hf : findSpan text with _ | v
    · simp
    · simp
  · intro L hL
    rcases hf : findSpan text with _ | ⟨⟨pre, inner, post⟩⟩
    · rw [(parse_none_iff_findSpan text).mpr hf] at hL
      exact absurd hL (by simp)
    · rw [parse_some_eq hf] at hL
      split at hL
      · simp only [Option.some.injEq] at hL
        subst hL
        exact ⟨by simp, by intro l hl; simp at hl⟩
      · rename_i hne
        simp only [Option.some.injEq] at hL
        subst hL
        rcases strip_head_last inner with hz |
          ⟨⟨c, t, hsh, hcsp⟩, ⟨c2, hlast2, hc2sp⟩⟩
        · rw [hz] at hne
          simp at hne
        · constructor
          · have hcb : isLineBreak c = false := by
              cases hb : isLineBreak c
              · rfl
              · rw [break_imp_space hb] at hcsp
                exact absurd hcsp (by simp)
            rw [hsh]
            obtain ⟨l, ls, hsp2, hlne⟩ := splitlines_head t hcb
            rw [hsp2]
            simp only [List.head?_cons, Ne, Option.some.injEq]
            intro hcon
            exact hlne hcon
          · have hres := splitlines_last (strip inner) (by
              intro c3 hc3
              rw [hlast2] at hc3
              have hc4 : c2 = c3 := by injection hc3
              rw [← hc4]
              cases hb : isLineBreak c2
              · rfl
              · rw [break_imp_space hb] at hc2sp
                exact absurd hc2sp (by simp))
            rcases hres with hz | ⟨_, hl⟩
            · rw [hz] at hsh
              simp at hsh
            · exact hl

/-- Witness for C9 on a block with a blank interior line: the first and
last lines are non-empty. -/
theorem parse_block_cases_witness :
    parse_todo_block (TODO_START ++
      '\n' :: ('a' :: '\n' :: '\n' :: 'b' :: '\n' :: TODO_END)) =
      some [['a'], [], ['b']] ∧
    ([['a'], [], ['b']] : List Str).head? ≠ some [] := by
  refine ⟨by decide, ?_⟩
  exact ((parse_block_cases (TODO_START ++
    '\n' :: ('a' :: '\n' :: '\n' :: 'b' :: '\n' :: TODO_END))).2
    [['a'], [], ['b']] (by decide)).1

/-- C9 (counterexample): a block whose inner content is `a`, blank line,
`b` parses to a sequence containing the empty line — not every returned
element is non-empty. -/
theorem parse_block_empty_interior_counterexample :
    parse_todo_block (TODO_START ++
      '\n' :: ('a' :: '\n' :: '\n' :: 'b' :: '\n' :: TODO_END)) =
      some [['a'], [], ['b']] ∧
    ([] : Str) ∈ [['a'], [], ['b']] := by
  exact ⟨by decide, by decide⟩

theorem containsSubB_nil {pat : Str} (h : pat ≠ []) :
    containsSubB pat [] = false := by
  rcases pat with _ | ⟨c, cs⟩
  · exact absurd rfl h
  · rfl

theorem lstrip_cons_space {c : Char} (z : Str) (h : isPySpace c = true) :
    lstrip (c :: z) = lstrip z :=
  List.dropWhile_cons_of_pos h

theorem rstrip_append_space {c : Char} (z : Str) (h : isPySpace c = true) :
    rstrip (z ++ [c]) = rstrip z := by
  rw [rstrip, rstrip, List.reverse_append]
  simp only [List.reverse_cons, List.reverse_nil, List.nil_append,
    List.singleton_append]
  rw [List.dropWhile_cons_of_pos h]

theorem strip_fixed {S : Str} (h : strip S = S) :
    lstrip S = S ∧ rstrip S = S := by
  have h1 : (lstrip S).length ≤ S.length :=
    (List.dropWhile_suffix isPySpace).length_le
  have h2 : (rstrip (lstrip S)).length ≤ (lstrip S).length :=
    (rstrip_pfx (lstrip S)).length_le
  rw [strip] at h
  have h3 : S.length ≤ (lstrip S).length := by
    calc S.length = (rstrip (lstrip S)).length := by rw [h]
    _ ≤ (lstrip S).length := h2
  have h4 : lstrip S = S :=
    (List.dropWhile_suffix isPySpace).eq_of_length (le_antisymm h1 h3)
  refine ⟨h4, ?_⟩
  rw [h4] at h
  exact h

theorem lstrip_fixed_head {c : Char} {t : Str} (h : lstrip (c :: t) = c :: t) :
    isPySpace c = false := by
  cases hs : isPySpace c
  · rfl
  · exfalso
    rw [lstrip_cons_space t hs] at h
    have := congrArg List.length h
    have h2 : (lstrip t).length ≤ t.length :=
      (List.dropWhile_suffix isPySpace).length_le
    simp only [List.length_cons] at this
    omega

/-- Stripping the newline padding that `write_block` places around the
joined lines recovers the joined lines, when they are strip-fixed. -/
theorem strip_wrap {S : Str} (h : strip S = S) :
    strip ('\n' :: (S ++ ['\n'])) = S := by
  obtain ⟨hls, hrs⟩ := strip_fixed h
  rw [strip, lstrip_cons_space _ (by decide)]
  rcases hS : S with _ | ⟨c, t⟩
  · simp only [List.nil_append]
    rw [show lstrip ['\n'] = [] from rfl]
    rfl
  · rw [hS] at hls
    have hc := lstrip_fixed_head hls
    rw [show (c :: t) ++ ['\n'] = c :: (t ++ ['\n']) from rfl]
    rw [lstrip, List.dropWhile_cons_of_neg (by rw [hc]; exact Bool.false_ne_true)]
    rw [show c :: (t ++ ['\n']) = (c :: t) ++ ['\n'] from rfl]
    rw [rstrip_append_space _ (by decide)]
    rw [hS] at hrs
    exact hrs

theorem joinNl_cons_cons (x y : Str) (r : List Str) :
    joinNl (x :: y :: r) = x ++ '\n' :: joinNl (y :: r) := rfl

theorem joinNl_eq_nil {L : List Str} (h : joinNl L = []) :
    L = [] ∨ L = [[]] := by
  rcases L with _ | ⟨x, xs⟩
  · exact Or.inl rfl
  rcases xs with _ | ⟨y, ys⟩
  · right
    rw [show joinNl [x] = x from rfl] at h
    rw [h]
  · exfalso
    rw [joinNl_cons_cons] at h
    rcases x with _ | ⟨c, t⟩
    · simp at h
    · simp at h

theorem joinNl_trailing : ∀ (L : List Str), L.getLast? = some [] →
    2 ≤ L.length → ∃ z, joinNl L = z ++ ['\n'] := by
  intro L
  induction L with
  | nil =>
    intro h _
    simp at h
  | cons x xs ih =>
    intro h hlen
    rcases xs with _ | ⟨y, ys⟩
    · simp at hlen
    rcases ys with _ | ⟨w, ws⟩
    · rw [List.getLast?_cons_cons, List.getLast?_singleton] at h
      injection h with h
      subst h
      exact ⟨x, by rw [joinNl_cons_cons]; rfl⟩
    · have h2 : (y :: w :: ws).getLast? = some [] := by
        rwa [List.getLast?_cons_cons] at h
      obtain ⟨z, hz⟩ := ih h2 (by simp)
      refine ⟨x ++ '\n' :: z, ?_⟩
      rw [joinNl_cons_cons, hz]
      simp

theorem splitlines_no_break : ∀ (x : Str), x ≠ [] →
    (∀ c ∈ x, isLineBreak c = false) → splitlines x = [x] := by
  intro x
  induction x with
  | nil =>
    intro h _
    exact absurd rfl h
  | cons c t ih =>
    intro _ hall
    have hc : isLineBreak c = false := hall c (by simp)
    rw [splitlines_cons_not_break t hc]
    rcases t with _ | ⟨c2, t2⟩
    · rfl
    · rw [ih (by simp) (fun d hd => hall d (by simp [hd]))]

theorem splitlines_append_line : ∀ (x : Str) (r : Str),
    (∀ c ∈ x, isLineBreak c = false) →
    splitlines (x ++ '\n' :: r) = x :: splitlines r := by
  intro x
  induction x with
  | nil =>
    intro r _
    rw [List.nil_append]
    exact splitlines_break_eq (by decide) (fun rest2 h _ => by
      exact absurd h (by decide))
  | cons c t ih =>
    intro r hall
    have hc : isLineBreak c = false := hall c (by simp)
    rw [List.cons_append, splitlines_cons_not_break _ hc]
    rw [ih r (fun d hd => hall d (by simp [hd]))]

theorem splitlines_joinNl : ∀ (L : List Str), L ≠ [] →
    (∀ l ∈ L, ∀ c ∈ l, isLineBreak c = false) →
    L.getLast? ≠ some [] →
    splitlines (joinNl L) = L := by
  intro L
  induction L with
  | nil =>
    intro h _ _
    exact absurd rfl h
  | cons x xs ih =>
    intro _ hall hlast
    rcases xs with _ | ⟨y, ys⟩
    · rw [show joinNl [x] = x from rfl]
      have hx : x ≠ [] := by
        intro hx
        apply hlast
        rw [hx]
        rfl
      rw [splitlines_no_break x hx (hall x (by simp))]
    · rw [joinNl_cons_cons,
        splitlines_append_line x (joinNl (y :: ys)) (hall x (by simp))]
      rw [ih (by simp) (fun l hl c hc => hall l (by simp [hl]) c hc)
        (by rwa [List.getLast?_cons_cons] at hlast)]

theorem joinNl_not_contains {pat : Str} (hpat : pat ≠ [])
    (hnl : ('\n' : Char) ∉ pat) :
    ∀ (L : List Str), (∀ l ∈ L, containsSubB pat l = false) →
    containsSubB pat (joinNl L) = false := by
  intro L
  induction L with
  | nil =>
    intro _
    exact containsSubB_nil hpat
  | cons x xs ih =>
    intro hall
    rcases xs with _ | ⟨y, ys⟩
    · rw [show joinNl [x] = x from rfl]
      exact hall x (by simp)
    · rw [joinNl_cons_cons]
      cases hc : containsSubB pat (x ++ '\n' :: joinNl (y :: ys))
      · rfl
      · exfalso
        rcases contains_append_char hc with h1 | h1 | h1
        · rw [hall x (by simp)] at h1
          exact Bool.false_ne_true h1
        · exact hnl h1
        · rw [ih (fun l hl => hall l (by simp [hl]))] at h1
          exact Bool.false_ne_true h1

/-- C1 (amended): the round-trip law `parse_block(write_block(text, L)) = L`
holds for every text that does not contain the start marker (so the
written block is the first span found) and every line sequence whose
lines are free of marker substrings and of line-break characters,
provided the newline-join of `L` is already stripped (no leading
whitespace on the first line, no trailing whitespace on the last) and `L`
is not the single empty line (which serializes like the empty list). -/
theorem round_trip (text : Str) (L : List Str)
    (hT : containsSubB TODO_START text = false)
    (hlines : ∀ l ∈ L, containsSubB TODO_START l = false ∧
      containsSubB TODO_END l = false ∧ ∀ c ∈ l, isLineBreak c = false)
    (hstrip : strip (joinNl L) = joinNl L)
    (hL1 : L ≠ [[]]) :
    parse_todo_block (write_block text L) = some L := by
  have hweq : write_block text L = text ++ '\n' :: new_block L := by
    rw [write_block, if_neg]
    intro hcond
    rw [hT] at hcond
    simp at hcond
  have ha : containsSubB TODO_START (text ++ ['\n']) = false := by
    cases hcc : containsSubB TODO_START (text ++ ['\n'])
    · rfl
    · exfalso
      rcases contains_append_char (x := text) (y := []) hcc with h1 | h1 | h1
      · rw [hT] at h1
        exact Bool.false_ne_true h1
      · exact (by decide : ¬ ('\n' : Char) ∈ TODO_START) h1
      · rw [containsSubB_nil start_ne_nil] at h1
        exact Bool.false_ne_true h1
  have hx : containsSubB TODO_END ('\n' :: (joinNl L ++ ['\n'])) = false := by
    cases hcc : containsSubB TODO_END ('\n' :: (joinNl L ++ ['\n']))
    · rfl
    · exfalso
      rcases contains_append_char (x := []) (y := joinNl L ++ ['\n']) hcc
        with h1 | h1 | h1
      · rw [containsSubB_nil end_ne_nil] at h1
        exact Bool.false_ne_true h1
      · exact (by decide : ¬ ('\n' : Char) ∈ TODO_END) h1
      · rcases contains_append_char (x := joinNl L) (y := []) h1
          with h2 | h2 | h2
        · rw [joinNl_not_contains end_ne_nil (by decide) L
            (fun l hl => (hlines l hl).2.1)] at h2
          exact Bool.false_ne_true h2
        · exact (by decide : ¬ ('\n' : Char) ∈ TODO_END) h2
        · rw [containsSubB_nil end_ne_nil] at h2
          exact Bool.false_ne_true h2
  have hf : findSpan (text ++ '\n' :: new_block L) =
      some (text ++ ['\n'], '\n' :: (joinNl L ++ ['\n']), []) := by
    have hsh : text ++ '\n' :: new_block L =
        (text ++ ['\n']) ++ (TODO_START ++
          (('\n' :: (joinNl L ++ ['\n'])) ++ (TODO_END ++ []))) := by
      simp [new_block]
    rw [hsh]
    exact findSpan_eq ha hx
  rw [hweq, parse_some_eq hf, strip_wrap hstrip]
  by_cases hJ : joinNl L = []
  · rcases joinNl_eq_nil hJ with rfl | hL
    · rw [hJ]
      rfl
    · exact absurd hL hL1
  · have hE : (joinNl L).isEmpty = false := by
      rcases hJL : joinNl L with _ | ⟨c, t⟩
      · exact absurd hJL hJ
      · rfl
    rw [hE]
    simp only [Bool.false_eq_true, if_false, Option.some.injEq]
    apply splitlines_joinNl L
    · intro hL
      apply hJ
      rw [hL]
      rfl
    · exact fun l hl => (hlines l hl).2.2
    · intro hg
      rcases L with _ | ⟨x, xs⟩
      · simp at hg
      rcases xs with _ | ⟨y, ys⟩
      · rw [List.getLast?_singleton] at hg
        injection hg with hg
        apply hL1
        rw [hg]
      · obtain ⟨z, hz⟩ := joinNl_trailing (x :: y :: ys) hg (by simp)
        have hrs := (strip_fixed hstrip).2
        rw [hz, rstrip_append_space _ (by decide)] at hrs
        have hlen : (rstrip z).length ≤ z.length :=
          (rstrip_pfx z).length_le
        have := congrArg List.length hrs
        simp only [List.length_append, List.length_cons,
          List.length_nil] at this
        omega

/-- Witness for C1 on a marker-free file and two ordinary task lines. -/
theorem round_trip_witness :
    parse_todo_block (write_block "x = 1".data
      ["(1) a".data, "(2) b".data]) =
      some ["(1) a".data, "(2) b".data] :=
  round_trip "x = 1".data ["(1) a".data, "(2) b".data]
    (by decide) (by decide) (by decide) (by decide)

/-- C1 (counterexample): a line with leading whitespace does not survive
the round trip — the inner content is stripped before splitting, so
`" a"` comes back as `"a"`. -/
theorem round_trip_counterexample :
    parse_todo_block (write_block "x".data [" a".data]) =
      some ["a".data] ∧
    (["a".data] : List Str) ≠ [" a".data] := ⟨by decide, by decide⟩

theorem findSpan_none_of_no_start {t : Str}
    (ht : containsSubB TODO_START t = false) : findSpan t = none := by
  rw [findSpan]
  rcases hs : splitFirst TODO_START t with _ | v
  · rfl
  · rw [containsSubB, hs] at ht
    simp at ht

theorem subAll_none {repl t : Str}
    (ht : containsSubB TODO_START t = false) : subAll repl t = t := by
  rw [subAll.eq_def, findSpan_none_of_no_start ht]

theorem subAll_span {repl a x b : Str}
    (ha : containsSubB TODO_START a = false)
    (hx : containsSubB TODO_END x = false) :
    subAll repl (a ++ (TODO_START ++ (x ++ (TODO_END ++ b)))) =
      a ++ (repl ++ subAll repl b) := by
  rw [subAll.eq_def, findSpan_eq ha hx]

/-- C8 (amended): `re.sub` without a count replaces EVERY non-overlapping
start-to-end span, not only the first: on a text holding two spans, both
are replaced by the new serialized block while the text around and
between them is preserved; and a new block is appended at the end only
when one of the markers is missing from the text as a substring. -/
theorem write_block_spans (a x m y c : Str) (L : List Str)
    (ha : containsSubB TODO_START a = false)
    (hx : containsSubB TODO_END x = false)
    (hm : containsSubB TODO_START m = false)
    (hy : containsSubB TODO_END y = false)
    (hc : containsSubB TODO_START c = false) :
    write_block (a ++ (TODO_START ++ (x ++ (TODO_END ++
        (m ++ (TODO_START ++ (y ++ (TODO_END ++ c)))))))) L =
      a ++ (new_block L ++ (m ++ (new_block L ++ c))) ∧
    (∀ text2, containsSubB TODO_START text2 = false →
      write_block text2 L = text2 ++ '\n' :: new_block L) := by
  constructor
  · rw [write_block, if_pos]
    · rw [subAll_span ha hx, subAll_span hm hy, subAll_none hc]
    · rw [Bool.and_eq_true]
      constructor
      · exact containsSubB_embed TODO_START a _
      · rw [show a ++ (TODO_START ++ (x ++ (TODO_END ++
          (m ++ (TODO_START ++ (y ++ (TODO_END ++ c))))))) =
          (a ++ (TODO_START ++ x)) ++ (TODO_END ++
          (m ++ (TODO_START ++ (y ++ (TODO_END ++ c))))) by simp]
        exact containsSubB_embed TODO_END _ _
  · intro text2 ht2
    rw [write_block, if_neg]
    intro hcond
    rw [ht2] at hcond
    simp at hcond

/-- Witness for C8 on a concrete two-span text: both spans are rewritten. -/
theorem write_block_spans_witness :
    write_block (TODO_START ++ ('\n' :: 'A' :: '\n' :: (TODO_END ++
        ('m' :: (TODO_START ++ ('\n' :: 'B' :: '\n' :: (TODO_END ++
          ['z']))))))) [['t']] =
      new_block [['t']] ++ ('m' :: (new_block [['t']] ++ ['z'])) :=
  (write_block_spans [] ['\n', 'A', '\n'] ['m'] ['\n', 'B', '\n'] ['z']
    [['t']] (by decide) (by decide) (by decide) (by decide) (by decide)).1

/-- C8 (counterexample): with two spans in the text, the second span is
rewritten too — the result differs from the claimed first-span-only
replacement, which would leave the later span intact. -/
theorem write_block_counterexample :
    write_block (TODO_START ++ ('\n' :: 'A' :: '\n' :: (TODO_END ++
        ('m' :: (TODO_START ++ ('\n' :: 'B' :: '\n' :: (TODO_END ++
          ['z']))))))) [['t']] =
      new_block [['t']] ++ ('m' :: (new_block [['t']] ++ ['z'])) ∧
    new_block [['t']] ++ ('m' :: (new_block [['t']] ++ ['z'])) ≠
      new_block [['t']] ++ ('m' :: (TODO_START ++ ('\n' :: 'B' :: '\n' ::
        (TODO_END ++ ['z'])))) := by
  constructor
  · rw [write_block, if_pos (by
      rw [Bool.and_eq_true]
      refine ⟨containsSubB_embed TODO_START [] _, ?_⟩
      rw [show TODO_START ++ ('\n' :: 'A' :: '\n' :: (TODO_END ++
          ('m' :: (TODO_START ++ ('\n' :: 'B' :: '\n' :: (TODO_END ++
            ['z'])))))) =
        (TODO_START ++ ['\n', 'A', '\n']) ++ (TODO_END ++
          ('m' :: (TODO_START ++ ('\n' :: 'B' :: '\n' :: (TODO_END ++
            ['z']))))) by simp]
      exact containsSubB_embed TODO_END _ _)]
    show subAll (new_block [['t']]) ([] ++ (TODO_START ++
      (['\n', 'A', '\n'] ++ (TODO_END ++ (['m'] ++ (TODO_START ++
        (['\n', 'B', '\n'] ++ (TODO_END ++ ['z'])))))))) = _
    rw [subAll_span (by decide) (by decide),
      subAll_span (by decide) (by decide), subAll_none (by decide)]
    simp
  · decide
